import Mathlib

/-!
# Verification of the rezza-js workflow engine (src/unnamed/part_007)

A shallow embedding of the durable-workflow runtime of `rezza-js`
(the latest source revision, `src/unnamed/part_007`, v0.4.x — the revision
that collects `newConsumedEvents`; the older copies under
`src/packages/workflow` and `src/unnamed/part_006` are earlier revisions of
the same file and are superseded by it).

Modelling conventions:
* JavaScript runtime values observed by the engine are modelled by `Val`,
  with `Val.undef` playing the role of `undefined` and `Val.truthy`
  mirroring JS truthiness for the value shapes the engine manipulates.
* Node bodies (the `compute` and `saga` callbacks) are arbitrary TS
  functions interacting with the engine only through the context facade
  (`get` / `step` / `capture` / `waitUntil`); they are embedded as programs
  of the small effect language `Prog`, interpreted by `runBody` exactly as
  the replay dispatcher drives a body.
* The thrown control-flow sentinels (`InputInterrupt`, `PromiseInterrupt`)
  are modelled as the outcome sum `BodyOut`, selected without exceptions.
* Mutable instance state is passed explicitly (`ExecSt` for the per-node
  execution, `WfState` for the persistent event log / snapshots).
* The unbounded saga loop is given fuel; `none` models a run that has not
  terminated within the fuel (the TS loop would still be running).
* The `capture` invocation log `ExecSt.caps` is ghost instrumentation that
  records each call of a capture's `fn`; it adds nothing to control flow.
-/

/-- JS runtime values as far as the engine observes them. `undef` is
JavaScript `undefined`. -/
inductive Val where
  | undef
  | num (n : Int)
  | str (s : String)
  | bool (b : Bool)
deriving DecidableEq, Repr

/-- JS truthiness for `Val` (used by the engine in `value ? … : …` spreads). -/
def Val.truthy : Val → Bool
  | .undef => false
  | .num n => n ≠ 0
  | .str s => s ≠ ""
  | .bool b => b

/-- The step context a body passes to `step`/`capture`
(`StepContext` in `types.ts`); `inputs` is already projected to the list of
input keys (`context.inputs?.map(i => i.key)`), which is all the engine
reads from it. -/
structure StepContext where
  key : String
  schema : Val := .undef
  inputs : Option (List (List String)) := none
deriving DecidableEq, Repr

/-- `FullStepContext`: a step context whose key has been replaced by the
full path `[...currentKeys, context.key]`. -/
structure FullStepContext where
  key : List String
  schema : Val := .undef
  inputs : Option (List (List String)) := none
deriving DecidableEq, Repr

/-- A persisted step event (`StepEvent` in part_007): path `k`, value `v`,
timestamp `ts`, optional recorded input keys `i`. -/
structure StepEvent where
  k : List String
  v : Val
  ts : Int
  i : Option (List (List String)) := none
deriving DecidableEq, Repr

/-- `StepEventWithContext`: a step event enriched with the live context of
the step that consumed or produced it. -/
structure StepEventC extends StepEvent where
  c : StepContext
deriving DecidableEq, Repr

/-- The `context_updated` warning pushed when a replayed event's recorded
input keys differ from the live context's. -/
structure Warning where
  step : List String
  old : Option (List (List String))
  new : Option (List (List String))
deriving DecidableEq, Repr

/-- `Result` of a node execution. Optional fields of the `intr` variant are
`Option`s: `none` means the field is absent from the returned object. -/
inductive ResultV where
  | pending (nodes : List String)
  | done (value : Val)
  | err (error : String)
  | intr (step : FullStepContext) (waitUntil : Option Int)
      (value : Option Val) (eventIdx : Option Nat)
deriving DecidableEq, Repr

/-- JS field read on an optional field: an absent field reads as
`undefined`. -/
def jsField (o : Option Val) : Val := o.getD (.undef)

/-- `result?.status === "done" ? result.value : result?.status === "intr" ?
result.value : undefined` — the value a dependant observes through
`get`. -/
def resultGetValue : Option ResultV → Val
  | some (.done v) => v
  | some (.intr _ _ v _) => jsField v
  | _ => (.undef)

/-- The dependency filter predicate of `executeNode`:
`!(result?.status === "done" || (result?.status === "intr" &&
result.value !== undefined))`. -/
def depUnsatisfied (r : Option ResultV) : Bool :=
  !(match r with
    | some (.done _) => true
    | some (.intr _ _ v _) => jsField v ≠ Val.undef
    | _ => false)

/-- The function passed to `capture`: either a synchronous producer (given
the current `getNow()` reading, covering `now` and `random`-style captures)
or an awaitable that resolves or rejects. -/
inductive CapFn where
  | sync (f : Int → Val)
  | async (res : Except String Val)

/-- The saga action component of `["cont" | "halt", value]`. -/
inductive SagaAct where
  | cont
  | halt
deriving DecidableEq, Repr

/-- Deep embedding of a node body: the sequence of context-facade calls a
body makes, with `ret` for normal completion and `throwE` for an ordinary
thrown error. `getv` is `get`, `stepc` is `step`, `capture` is `capture`,
`waitU` is `waitUntil`. -/
inductive Prog (α : Type) where
  | ret (a : α)
  | getv (dep : String) (k : Val → Prog α)
  | stepc (ctx : StepContext) (k : Val → Prog α)
  | capture (ctx : StepContext) (fn : CapFn) (k : Val → Prog α)
  | waitU (deadline : Int) (k : Prog α)
  | throwE (msg : String)

/-- Environment fixed for one promise-loop iteration of `executeNode`:
the path prefix stack, the event list snapshot `allEvents`, the visible
`tempResults`, and the value `getNow()` returns during this run. -/
structure BodyEnv where
  currentKeys : List String
  allEvents : List StepEvent
  deps : String → Option ResultV
  nowVal : Int

/-- Per-node mutable execution state: the replay cursor `idx`, this
node's pushes onto `newConsumedEvents` and `tempNewEvents`, warnings, and
the ghost log of capture-`fn` invocations (full paths). -/
structure ExecSt where
  idx : Nat
  consumed : List StepEventC
  tempNew : List StepEventC
  warns : List Warning
  caps : List (List String)

/-- The initial `ExecSt` of an `executeNode` call. -/
def ExecSt.init : ExecSt :=
  { idx := 0, consumed := [], tempNew := [], warns := [], caps := [] }

/-- Outcome of one dispatcher `step` call. -/
inductive StepRes where
  | val (v : Val) (st : ExecSt)
  | intr (f : FullStepContext) (st : ExecSt)
  | fail (msg : String) (st : ExecSt)

/-- JS `${array}` stringification of a path (comma-joined). -/
def keyStr (l : List String) : String := String.intercalate "," l

/-- The replay step dispatcher installed by `executeNode`
(part_007 lines 244–275): consume the cursor event if the cursor is inside
`allEvents` — pushing it (with the live context) onto `newConsumedEvents`
before the path comparison — return its value on a path match (warning on
an input-keys mismatch), raise a replay-divergence error on a path
mismatch; raise `InputInterrupt` when the cursor is at or past the end. -/
def stepCall (env : BodyEnv) (st : ExecSt) (ctx : StepContext) : StepRes :=
  if h : st.idx < env.allEvents.length then
    let event := env.allEvents.get ⟨st.idx, h⟩
    let fullKey := env.currentKeys ++ [ctx.key]
    let st1 : ExecSt :=
      { st with idx := st.idx + 1,
                consumed := st.consumed ++ [{ toStepEvent := event, c := ctx }] }
    if event.k = fullKey then
      let st2 : ExecSt :=
        if event.i = ctx.inputs then st1
        else { st1 with
                warns := st1.warns ++ [{ step := fullKey, old := event.i, new := ctx.inputs }] }
      .val event.v st2
    else
      .fail ("Expected event " ++ keyStr fullKey ++ " but got " ++ keyStr event.k ++ " instead") st1
  else
    .intr { key := env.currentKeys ++ [ctx.key], schema := ctx.schema, inputs := ctx.inputs } st

/-- How a body execution ends, as seen by the executor's catch clauses. -/
inductive BodyOut (α : Type) where
  | ok (a : α)
  | inputIntr (step : FullStepContext) (waitUntil : Option Int)
  | promiseIntr (stepKey : String) (res : Except String Val) (ctx : StepContext)
  | errOut (msg : String)

/-- The `WaitSchema` constant from `schemas.ts`, opaque to the engine. -/
def WaitSchemaV : Val := .str "WaitSchema"

/-- The event synthesized by `addTempEvent(key, v, context)`: path
`[...currentKeys, key]`, timestamp `getNow()`, carrying the live context. -/
def mkTempEvent (currentKeys : List String) (key : String) (v : Val)
    (nowVal : Int) (ctx : StepContext) : StepEventC :=
  { k := currentKeys ++ [key], v := v, ts := nowVal, i := none, c := ctx }

/-- Interpret a body against the replay dispatcher. Mirrors how the body's
facade calls resolve inside one promise-loop iteration:
`get` reads `tempResults`, `step` goes through the dispatcher, `capture`
first replays through `step` and on `InputInterrupt` invokes `fn`
(recording the invocation in the ghost `caps` log) — appending the
synthesized event for a synchronous `fn`, raising `PromiseInterrupt` for an
awaitable — and `waitUntil` raises `InputInterrupt` iff `getNow()` is
before the deadline. -/
def runBody (env : BodyEnv) : Prog α → ExecSt → BodyOut α × ExecSt
  | .ret a, st => (.ok a, st)
  | .throwE m, st => (.errOut m, st)
  | .getv d k, st => runBody env (k (resultGetValue (env.deps d))) st
  | .stepc ctx k, st =>
    match stepCall env st ctx with
    | .val v st' => runBody env (k v) st'
    | .intr f st' => (.inputIntr f none, st')
    | .fail m st' => (.errOut m, st')
  | .capture ctx fn k, st =>
    let stepKey := "capture:" ++ ctx.key
    match stepCall env st { ctx with key := stepKey } with
    | .val v st' => runBody env (k v) st'
    | .fail m st' => (.errOut m, st')
    | .intr _ st' =>
      let fullPath := env.currentKeys ++ [stepKey]
      match fn with
      | .sync f =>
        let v := f env.nowVal
        let ev := mkTempEvent env.currentKeys stepKey v env.nowVal ctx
        runBody env (k v)
          { st' with caps := st'.caps ++ [fullPath],
                     tempNew := st'.tempNew ++ [ev],
                     consumed := st'.consumed ++ [ev] }
      | .async r =>
        (.promiseIntr stepKey r ctx, { st' with caps := st'.caps ++ [fullPath] })
  | .waitU deadline k, st =>
    if env.nowVal < deadline then
      (.inputIntr { key := env.currentKeys ++ ["waitUntil"], schema := WaitSchemaV } (some deadline), st)
    else
      runBody env k st

/-- A DAG node as `executeNode` sees it: dependencies, the `compute` body
and the optional `saga` body. -/
structure Node where
  dependencies : List String
  compute : Prog Val
  saga : Option (Val → Prog (SagaAct × Val)) := none

/-- How one promise-loop iteration of `executeNode` ends. -/
inductive IterOut where
  | done (v : Val)
  | intr (f : FullStepContext) (w : Option Int) (value : Val) (eventIdx : Nat)
  | promised (stepKey : String) (res : Except String Val) (ctx : StepContext)
  | failed (msg : String)

/-- The `intr` Result built in the `InputInterrupt` catch clause
(part_007 lines 313–320): spread the interrupt's step, include `waitUntil`
and `value` only when truthy, `eventIdx` only when nonzero. -/
def mkIntrResult (f : FullStepContext) (w : Option Int) (value : Val)
    (eventIdx : Nat) : ResultV :=
  .intr f
    (match w with
     | some x => if x ≠ 0 then some x else none
     | none => none)
    (if value.truthy then some value else none)
    (if eventIdx ≠ 0 then some eventIdx else none)

/-- The saga loop (part_007 lines 287–297): record `eventIdx := idx`, run
one saga body, assign `value := newValue`, stop on `halt`, loop on `cont`;
an `InputInterrupt` thrown by the saga body surfaces with the value held
*before* this iteration and the `eventIdx` recorded at its entry. The fuel
bounds the number of iterations; `none` means the TS loop would still be
running. -/
def sagaLoop (env : BodyEnv) (sg : Val → Prog (SagaAct × Val)) :
    Nat → Val → ExecSt → Option (IterOut × ExecSt)
  | 0, _, _ => none
  | fuel + 1, value, st =>
    let eventIdx := st.idx
    match runBody env (sg value) st with
    | (.ok (act, newValue), st') =>
      if act = SagaAct.halt then some (.done newValue, st')
      else sagaLoop env sg fuel newValue st'
    | (.inputIntr f w, st') => some (.intr f w value eventIdx, st')
    | (.promiseIntr sk r c, st') => some (.promised sk r c, st')
    | (.errOut m, st') => some (.failed m, st')

/-- One iteration of `executeNode`'s promise loop (part_007 lines 238–299):
snapshot `allEvents` from persisted ++ incoming ++ tempNew, restore a saga
snapshot (cursor and value) if one exists — skipping `compute` — otherwise
run `compute`; then run the saga loop if the node has a saga. An
interruption during `compute` carries `value = undefined` and
`eventIdx = 0`. -/
def iterateOnce (node : Node) (persisted incoming : List StepEvent)
    (deps : String → Option ResultV) (nowVal : Int) (curKeys : List String)
    (snapshot : Option (Nat × Val)) (sagaFuel : Nat) (st0 : ExecSt) :
    Option (IterOut × ExecSt) :=
  let allEvents := persisted ++ incoming ++ st0.tempNew.map (·.toStepEvent)
  let env : BodyEnv :=
    { currentKeys := curKeys, allEvents := allEvents, deps := deps, nowVal := nowVal }
  match node.saga, snapshot with
  | some sg, some (i, v) => sagaLoop env sg sagaFuel v { st0 with idx := i }
  | some sg, none =>
    (match runBody env node.compute st0 with
     | (.ok v, st') => sagaLoop env sg sagaFuel v st'
     | (.inputIntr f w, st') => some (.intr f w .undef 0, st')
     | (.promiseIntr sk r c, st') => some (.promised sk r c, st')
     | (.errOut m, st') => some (.failed m, st'))
  | none, _ =>
    (match runBody env node.compute st0 with
     | (.ok v, st') => some (.done v, st')
     | (.inputIntr f w, st') => some (.intr f w .undef 0, st')
     | (.promiseIntr sk r c, st') => some (.promised sk r c, st')
     | (.errOut m, st') => some (.failed m, st'))

/-- `MAX_PROMISES` from `executeNode`. -/
def MAX_PROMISES : Nat := 1000

/-- The promise loop of `executeNode` (part_007 lines 238–334): run an
iteration; on `PromiseInterrupt` await the promise — on success append the
synthesized event to `tempNewEvents` and `newConsumedEvents`
(`addTempEvent`) and re-execute the body, on rejection return `err`; other
outcomes return. The budget is `MAX_PROMISES - promiseCount`; exhausting it
returns the "Too many promises" error. -/
def promiseLoop (node : Node) (persisted incoming : List StepEvent)
    (deps : String → Option ResultV) (nowVal : Int) (curKeys : List String)
    (snapshot : Option (Nat × Val)) (sagaFuel : Nat) :
    Nat → ExecSt → Option (ResultV × ExecSt)
  | 0, st => some (.err "Too many promises in a single step!", st)
  | budget + 1, st =>
    match iterateOnce node persisted incoming deps nowVal curKeys snapshot sagaFuel st with
    | none => none
    | some (.done v, st') => some (.done v, st')
    | some (.intr f w value eventIdx, st') => some (mkIntrResult f w value eventIdx, st')
    | some (.failed m, st') => some (.err m, st')
    | some (.promised sk r c, st') =>
      match r with
      | .error e => some (.err e, st')
      | .ok v =>
        let ev := mkTempEvent curKeys sk v nowVal c
        promiseLoop node persisted incoming deps nowVal curKeys snapshot sagaFuel budget
          { st' with tempNew := st'.tempNew ++ [ev], consumed := st'.consumed ++ [ev] }

/-- `executeNode` (part_007 lines 216–335): return `pending` with the
unsatisfied dependencies if any, otherwise drive the promise loop from a
fresh cursor. -/
def executeNode (node : Node) (tempResults : String → Option ResultV)
    (persisted incoming : List StepEvent) (nowVal : Int)
    (curKeys : List String) (snapshot : Option (Nat × Val)) (sagaFuel : Nat) :
    Option (ResultV × ExecSt) :=
  let pending := node.dependencies.filter (fun d => depUnsatisfied (tempResults d))
  if pending ≠ [] then some (.pending pending, ExecSt.init)
  else promiseLoop node persisted incoming tempResults nowVal curKeys snapshot
    sagaFuel MAX_PROMISES ExecSt.init

/-- A workflow's immutable node map, in insertion order (`Object.keys`
order of `this.nodes`). -/
abbrev Wf : Type := List (String × Node)

/-- Node lookup (`this.nodes[key]`). -/
def findNode (wf : Wf) (k : String) : Option Node :=
  (List.find? (fun p => p.1 = k) wf).map (·.2)

/-- The node keys of a workflow. -/
def wfKeys (wf : Wf) : List String := wf.map (·.1)

/-- The DFS of `topologicalSort`: mark the node visited, visit its
dependencies, append the node post-order. The fuel bounds the recursion
depth; since a node already visited returns immediately, every recursion
path has pairwise-distinct nodes, so fuel `wf.length + 1` reproduces the
TS recursion exactly. A dependency that is not a node key contributes no
further visits (the builder guarantees this case is unreachable). -/
def topoVisit (wf : Wf) : Nat → String → List String × List String → List String × List String
  | 0, _, s => s
  | fuel + 1, n, (vis, res) =>
    if n ∈ vis then (vis, res)
    else
      let deps := match findNode wf n with | some nd => nd.dependencies | none => []
      let s := deps.foldl (fun s d => topoVisit wf fuel d s) (n :: vis, res)
      (s.1, s.2 ++ [n])

/-- `topologicalSort` (part_007 lines 382–400): post-order DFS over the
nodes in insertion order. -/
def topologicalSort (wf : Wf) : List String :=
  (wf.foldl (fun s p => topoVisit wf (wf.length + 1) p.1 s) ([], [])).2

/-- Persistent per-instance state: the event log, the saga snapshots and
the single-active-run flag. -/
structure WfState where
  events : String → List StepEvent
  snapshots : String → Option (Nat × Val)
  isRunning : Bool

/-- `RunOptions`: `timeout` (a number or absent) and the deterministic
`now` override, modelled as the constant the override returns. -/
structure RunOpts where
  timeout : Option Int := none
  now : Option Int := none

/-- `getNow()`: the `now` override if provided, else the wall clock
(`Date.now()`), passed in as a parameter of the run. -/
def getNowVal (opts : RunOpts) (wallClock : Int) : Int :=
  opts.now.getD wallClock

/-- `opts?.timeout` truthiness (the guard arming the timeout race). -/
def timeoutArmed (opts : RunOpts) : Bool :=
  match opts.timeout with
  | some t => t ≠ 0
  | none => false

/-- Accumulated run-global transient state: `newConsumedEvents`,
`tempWarnings` and the ghost capture log. -/
structure GlobalAcc where
  consumed : List StepEventC
  warns : List Warning
  caps : List (List String)

/-- `executeNodes` (part_007 lines 403–413) over an explicit node order:
for each node, push its key as the path prefix, execute it against the
incoming events sliced by `e.k[0] === node`, and record its Result in
`tempResults`. A name without a node is skipped (unreachable for orders
produced by `topologicalSort` over a built workflow). -/
def executeNodes (wf : Wf) (s : WfState) (incoming : List StepEvent)
    (nowVal : Int) (sagaFuel : Nat) :
    List String → (String → Option ResultV) → GlobalAcc →
    Option ((String → Option ResultV) × GlobalAcc)
  | [], tr, acc => some (tr, acc)
  | n :: rest, tr, acc =>
    match findNode wf n with
    | none => executeNodes wf s incoming nowVal sagaFuel rest tr acc
    | some node =>
      match executeNode node tr (s.events n)
          (incoming.filter (fun e => e.k.head? = some n)) nowVal [n]
          (s.snapshots n) sagaFuel with
      | none => none
      | some (r, st) =>
        executeNodes wf s incoming nowVal sagaFuel rest
          (Function.update tr n (some r))
          { consumed := acc.consumed ++ st.consumed,
            warns := acc.warns ++ st.warns,
            caps := acc.caps ++ st.caps }

/-- Outcome of a public entry point: a JS throw escaping to the caller, a
normal return, or an execution that does not terminate within the saga
fuel (the TS promise would still be pending). -/
inductive RunRes (α : Type) where
  | thrown (msg : String)
  | out (a : α)
  | diverge

/-- The value `dryRun` resolves with (`values`, `newEvents`, `warnings`,
`timeout`), plus the ghost capture log. -/
structure DryOut where
  values : String → Option ResultV
  newEvents : List StepEventC
  warnings : List Warning
  timeout : Bool
  caps : List (List String)

/-- `dryRun` (part_007 lines 415–459). The real-time race of the schedule
against the timer is modelled by the oracle `timer`: it is consulted only
when `opts.timeout` is truthy, and `timer = some j` means the timer fired
while `j` nodes of the schedule had completed (execution is abandoned at
that suspension point and `timeout = true`); `timer = none` means the
schedule won. Transient state exists only inside this call; the persistent
state is returned unchanged (with `isRunning` released). -/
def dryRun (wf : Wf) (s : WfState) (incoming : List StepEvent)
    (opts : RunOpts) (timer : Option Nat) (wallClock : Int) (sagaFuel : Nat) :
    RunRes (DryOut × WfState) :=
  if s.isRunning then .thrown "Workflow is already running"
  else
    let order := topologicalSort wf
    let oc : List String × Bool :=
      if timeoutArmed opts then
        match timer with
        | some j => (order.take j, true)
        | none => (order, false)
      else (order, false)
    match executeNodes wf s incoming (getNowVal opts wallClock) sagaFuel oc.1
        (fun _ => none) ⟨[], [], []⟩ with
    | none => .diverge
    | some (tr, acc) =>
      .out ({ values := tr, newEvents := acc.consumed, warnings := acc.warns,
              timeout := oc.2, caps := acc.caps },
            { s with isRunning := false })

/-- The commit loop of `run` (part_007 lines 473–478): append every
consumed event to `events[e.k[0]]`. The context enrichment `c` is dropped
on the persisted copy (nothing ever reads it back). An event with an empty
path is skipped (engine-produced consumed events always carry the owning
node as `k[0]`). -/
def commitEvents (events : String → List StepEvent) :
    List StepEventC → (String → List StepEvent)
  | [] => events
  | e :: rest =>
    match e.k.head? with
    | some n => commitEvents (Function.update events n (events n ++ [e.toStepEvent])) rest
    | none => commitEvents events rest

/-- The snapshot-persist loop of `run` (part_007 lines 479–484): for every
`intr` Result carrying a truthy `eventIdx`, store
`snapshots[k] = [eventIdx, result.value]` (an absent `value` field reads
as `undefined`). -/
def commitSnapshots (snaps : String → Option (Nat × Val))
    (results : String → Option ResultV) : String → Option (Nat × Val) :=
  fun k =>
    match results k with
    | some (.intr _ _ v (some e)) => if e ≠ 0 then some (e, jsField v) else snaps k
    | _ => snaps k

/-- `run` (part_007 lines 461–486): delegate to `dryRun`, raise `"Timeout"`
when it timed out, otherwise commit consumed events and saga snapshots and
return the result map. -/
def run (wf : Wf) (s : WfState) (incoming : List StepEvent) (opts : RunOpts)
    (timer : Option Nat) (wallClock : Int) (sagaFuel : Nat) :
    RunRes ((String → Option ResultV) × DryOut) × WfState :=
  match dryRun wf s incoming opts timer wallClock sagaFuel with
  | .thrown m => (.thrown m, s)
  | .diverge => (.diverge, s)
  | .out (dr, s1) =>
    if dr.timeout then (.thrown "Timeout", s1)
    else
      (.out (dr.values, dr),
       { events := commitEvents s1.events dr.newEvents,
         snapshots := commitSnapshots s1.snapshots dr.values,
         isRunning := s1.isRunning })

/-- `spawn()`: a fresh instance over the same nodes with empty state. -/
def spawnState : WfState :=
  { events := fun _ => [], snapshots := fun _ => none, isRunning := false }

/-- `fork()`: a fresh instance carrying a copy of the event log and the
snapshots (copy depth is immaterial in the pure model). -/
def fork (s : WfState) : WfState :=
  { events := s.events, snapshots := s.snapshots, isRunning := false }

/-! ## Basic shape lemmas about the executor -/

/-- Field accessor: the `value` field of an `intr` Result (`none` on other
variants and when the field is absent). -/
def intrValueField : ResultV → Option Val
  | .intr _ _ v _ => v
  | _ => none

/-- Field accessor: the `eventIdx` field of an `intr` Result. -/
def intrEventIdxField : ResultV → Option Nat
  | .intr _ _ _ e => e
  | _ => none

lemma mkIntrResult_value_field (f : FullStepContext) (w : Option Int)
    (value : Val) (e : Nat) :
    intrValueField (mkIntrResult f w value e) =
      (if value.truthy then some value else none) := rfl

lemma mkIntrResult_eventIdx_field (f : FullStepContext) (w : Option Int)
    (value : Val) (e : Nat) :
    intrEventIdxField (mkIntrResult f w value e) =
      (if e ≠ 0 then some e else none) := rfl

/-- A promise-loop iteration of a saga-free node that ends interrupted
always carries `value = undefined` and `eventIdx = 0` (they are assigned
only by the saga loop). -/
lemma iterateOnce_saga_none_intr {node : Node} {P I : List StepEvent}
    {deps : String → Option ResultV} {nv : Int} {ck : List String}
    {snap : Option (Nat × Val)} {sf : Nat} {st0 st' : ExecSt}
    {f : FullStepContext} {w : Option Int} {value : Val} {e : Nat}
    (hsaga : node.saga = none)
    (h : iterateOnce node P I deps nv ck snap sf st0 = some (.intr f w value e, st')) :
    value = .undef ∧ e = 0 := by
  unfold iterateOnce at h
  rw [hsaga] at h
  rcases hr : runBody
      { currentKeys := ck,
        allEvents := P ++ I ++ st0.tempNew.map (·.toStepEvent),
        deps := deps, nowVal := nv } node.compute st0 with ⟨out, st1⟩
  simp only [hr] at h
  cases out <;> simp_all

/-- Every `intr` Result produced by the promise loop is a `mkIntrResult`;
in particular its `value` field is present only for a truthy value, its
`eventIdx` field only when nonzero, and a saga-free node never carries
either field. -/
lemma promiseLoop_intr_shape {node : Node} {P I : List StepEvent}
    {deps : String → Option ResultV} {nv : Int} {ck : List String}
    {snap : Option (Nat × Val)} {sf : Nat} :
    ∀ {budget : Nat} {st st' : ExecSt} {f : FullStepContext} {w : Option Int}
      {vo : Option Val} {eo : Option Nat},
      promiseLoop node P I deps nv ck snap sf budget st = some (.intr f w vo eo, st') →
      (vo = none ∨ ∃ v, vo = some v ∧ v.truthy = true)
      ∧ (eo = none ∨ ∃ e, eo = some e ∧ e ≠ 0)
      ∧ (node.saga = none → vo = none ∧ eo = none) := by
  intro budget
  induction budget with
  | zero =>
    intro st st' f w vo eo h
    simp [promiseLoop] at h
  | succ n ih =>
    intro st st' f w vo eo h
    unfold promiseLoop at h
    rcases hit : iterateOnce node P I deps nv ck snap sf st with _ | ⟨io, st1⟩
    · simp [hit] at h
    simp only [hit] at h
    cases io with
    | done v => simp at h
    | failed m => simp at h
    | intr f1 w1 value1 e1 =>
      simp only [Option.some.injEq, Prod.mk.injEq] at h
      have hv : ResultV.intr f w vo eo = mkIntrResult f1 w1 value1 e1 := h.1.symm
      unfold mkIntrResult at hv
      injection hv with h1 h2 h3 h4
      refine ⟨?_, ?_, ?_⟩
      · by_cases ht : value1.truthy
        · exact Or.inr ⟨value1, by simp [h3, ht], ht⟩
        · exact Or.inl (by simp [h3, ht])
      · by_cases he : e1 = 0
        · exact Or.inl (by simp [h4, he])
        · exact Or.inr ⟨e1, by simp [h4, he], he⟩
      · intro hsaga
        obtain ⟨hvu, he0⟩ := iterateOnce_saga_none_intr hsaga hit
        subst hvu he0
        constructor
        · simp [h3, Val.truthy]
        · simp [h4]
    | promised sk r c =>
      rcases r with e | v
      · simp at h
      · simp only [] at h
        exact ih h

/-- The promise loop never returns a `pending` Result. -/
lemma promiseLoop_ne_pending {node : Node} {P I : List StepEvent}
    {deps : String → Option ResultV} {nv : Int} {ck : List String}
    {snap : Option (Nat × Val)} {sf : Nat} :
    ∀ {budget : Nat} {st st' : ExecSt} {r : ResultV},
      promiseLoop node P I deps nv ck snap sf budget st = some (r, st') →
      ∀ ns, r ≠ .pending ns := by
  intro budget
  induction budget with
  | zero =>
    intro st st' r h ns
    simp [promiseLoop] at h
    rcases h with ⟨h1, _⟩
    subst h1
    simp
  | succ n ih =>
    intro st st' r h ns
    unfold promiseLoop at h
    rcases hit : iterateOnce node P I deps nv ck snap sf st with _ | ⟨io, st1⟩
    · simp [hit] at h
    simp only [hit] at h
    cases io with
    | done v =>
      simp only [Option.some.injEq, Prod.mk.injEq] at h
      rw [← h.1]
      simp
    | failed m =>
      simp only [Option.some.injEq, Prod.mk.injEq] at h
      rw [← h.1]
      simp
    | intr f1 w1 value1 e1 =>
      simp only [Option.some.injEq, Prod.mk.injEq] at h
      rw [← h.1]
      simp [mkIntrResult]
    | promised sk r' c =>
      rcases r' with e | v
      · simp only [Option.some.injEq, Prod.mk.injEq] at h
        rw [← h.1]
        simp
      · simp only [] at h
        exact ih h ns

/-! ## Claim C2 — dependency check -/

/-- **C2.** `executeNode` returns `pending { nodes }` exactly when some
dependency's `tempResults` entry is neither `done` nor `intr` with a
defined `value` (field present — and present fields are never `undefined`);
the pending list is precisely the unsatisfied dependencies in order, and
the node body is not invoked in that case (the execution state is returned
untouched: nothing consumed, no capture invoked, no event synthesized).
The last conjuncts pin the satisfaction rule itself: an `intr` whose
`value` field holds `0` or `false` still satisfies the dependency, while a
missing `value` field does not. -/
theorem claim2_dependency_pending
    (node : Node) (tr : String → Option ResultV) (P I : List StepEvent)
    (nv : Int) (ck : List String) (snap : Option (Nat × Val)) (sf : Nat) :
    (node.dependencies.filter (fun d => depUnsatisfied (tr d)) ≠ [] →
      executeNode node tr P I nv ck snap sf =
        some (.pending (node.dependencies.filter (fun d => depUnsatisfied (tr d))),
          ExecSt.init))
    ∧ (∀ r st, executeNode node tr P I nv ck snap sf = some (r, st) →
        ((∃ ns, r = .pending ns) ↔
          node.dependencies.filter (fun d => depUnsatisfied (tr d)) ≠ []))
    ∧ (∀ f w ei, depUnsatisfied (some (.intr f w (some (.num 0)) ei)) = false)
    ∧ (∀ f w ei, depUnsatisfied (some (.intr f w (some (.bool false)) ei)) = false)
    ∧ (∀ f w ei, depUnsatisfied (some (.intr f w none ei)) = true) := by
  refine ⟨?_, ?_, ?_, ?_, ?_⟩
  · intro hne
    unfold executeNode
    simp [hne]
  · intro r st h
    unfold executeNode at h
    by_cases hne : node.dependencies.filter (fun d => depUnsatisfied (tr d)) = []
    · simp only [hne, ne_eq, not_true_eq_false, if_false] at h
      constructor
      · rintro ⟨ns, rfl⟩
        exact absurd rfl (promiseLoop_ne_pending h ns)
      · intro hcon
        exact absurd hne hcon
    · simp only [hne, ne_eq, not_false_eq_true, if_true, Option.some.injEq,
        Prod.mk.injEq] at h
      exact ⟨fun _ => hne, fun _ => ⟨_, h.1.symm⟩⟩
  · intro f w ei; rfl
  · intro f w ei; rfl
  · intro f w ei; rfl

/-- Witness for C2 at a concrete node: dependency `a` is `done`,
dependency `b` has no result yet, so `executeNode` returns
`pending ["b"]` without touching the body. -/
theorem claim2_witness :
    executeNode { dependencies := ["a", "b"], compute := .ret .undef }
      (fun d => if d = "a" then some (.done (.num 1)) else none)
      [] [] 0 ["n"] none 5 =
      some (.pending ["b"], ExecSt.init) := by
  have h := (claim2_dependency_pending
    { dependencies := ["a", "b"], compute := .ret .undef }
    (fun d => if d = "a" then some (.done (.num 1)) else none)
    [] [] 0 ["n"] none 5).1 (by decide)
  simpa using h

/-! ## Claim C3 — `intr` carries `value` only when truthy, not when defined -/

/-- A saga node whose compute returns the defined-but-falsy value `0` and
whose saga immediately suspends on a step. -/
def c3node : Node :=
  { dependencies := [],
    compute := .ret (.num 0),
    saga := some (fun v => .stepc { key := "s" } (fun _ => .ret (SagaAct.halt, v))) }

/-- **C3, counterexample.** The claim says a defined-but-falsy current
value (such as `0`) is still included in the `intr` Result. On `c3node`
the node suspends while its current value is `0` — defined, i.e. distinct
from `undefined` — yet the returned `intr` carries *no* `value` field
(third/fourth components `none none`): the code guards the spread with JS
truthiness (`value ? { value } : {}`), not definedness. -/
theorem claim3_counterexample :
    (executeNode c3node (fun _ => none) [] [] 0 ["n"] none 5).map (·.1) =
      some (.intr { key := ["n", "s"] } none none none)
    ∧ mkIntrResult { key := ["n", "s"] } none (.num 0) 0 =
        .intr { key := ["n", "s"] } none none none
    ∧ (Val.num 0 ≠ Val.undef) := by
  refine ⟨by rfl, by rfl, by decide⟩

/-- **C3, amended.** For every node that suspends with an `InputInterrupt`,
the resulting `intr` Result contains the field `value` exactly when the
node's current value is *truthy* (so `0`, `false` and `""` are omitted just
like `undefined`), and contains the field `eventIdx` exactly when the
recorded saga event index is nonzero; consequently every `intr` returned
by `executeNode` has either no `value` field or a truthy one, and either no
`eventIdx` field or a nonzero one. -/
theorem claim3_truthy_value_amended :
    (∀ f w value eIdx,
      (intrValueField (mkIntrResult f w value eIdx) ≠ none ↔ value.truthy = true)
      ∧ (intrValueField (mkIntrResult f w value eIdx) = some value ∨
          intrValueField (mkIntrResult f w value eIdx) = none)
      ∧ (intrEventIdxField (mkIntrResult f w value eIdx) ≠ none ↔ eIdx ≠ 0)
      ∧ (intrEventIdxField (mkIntrResult f w value eIdx) = some eIdx ∨
          intrEventIdxField (mkIntrResult f w value eIdx) = none))
    ∧ (∀ (node : Node) tr P I nv ck snap sf f w vo eo st,
        executeNode node tr P I nv ck snap sf = some (.intr f w vo eo, st) →
          (vo = none ∨ ∃ v, vo = some v ∧ v.truthy = true)
          ∧ (eo = none ∨ ∃ e, eo = some e ∧ e ≠ 0)) := by
  constructor
  · intro f w value eIdx
    rw [mkIntrResult_value_field, mkIntrResult_eventIdx_field]
    by_cases ht : value.truthy <;> by_cases he : eIdx = 0 <;> simp [ht, he]
  · intro node tr P I nv ck snap sf f w vo eo st h
    unfold executeNode at h
    by_cases hne : node.dependencies.filter (fun d => depUnsatisfied (tr d)) = []
    · simp only [hne, ne_eq, not_true_eq_false, if_false] at h
      obtain ⟨h1, h2, _⟩ := promiseLoop_intr_shape h
      exact ⟨h1, h2⟩
    · simp only [hne, ne_eq, not_false_eq_true, if_true, Option.some.injEq,
        Prod.mk.injEq] at h
      cases h.1

/-- Witness for the amended C3: the interrupted saga of `c3node` (current
value `0`) has no `value` field and no `eventIdx` field, by the amended
theorem applied at the concrete output of `executeNode`. -/
theorem claim3_witness :
    (none : Option Val) = none ∨ (∃ v, (none : Option Val) = some v ∧ v.truthy = true) :=
  (claim3_truthy_value_amended.2 c3node (fun _ => none) [] [] 0 ["n"] none 5
    { key := ["n", "s"] } none none none
    { idx := 0, consumed := [], tempNew := [], warns := [], caps := [] }
    (by rfl)).1

/-! ## dryRun / run inversion lemmas -/

/-- A successful `dryRun` returns the persistent state untouched (only the
`isRunning` latch is taken and released). -/
lemma dryRun_out_state {wf : Wf} {s : WfState} {incoming : List StepEvent}
    {opts : RunOpts} {timer : Option Nat} {wc : Int} {sf : Nat}
    {dr : DryOut} {s1 : WfState}
    (h : dryRun wf s incoming opts timer wc sf = .out (dr, s1)) :
    s1 = { s with isRunning := false } := by
  unfold dryRun at h
  by_cases hr : s.isRunning
  · simp [hr] at h
  · simp only [hr, Bool.false_eq_true, if_false] at h
    split at h
    · cases h
    · simp only [RunRes.out.injEq, Prod.mk.injEq] at h
      exact h.2.symm

/-- `dryRun` throws only the concurrent-run guard. -/
lemma dryRun_thrown_running {wf : Wf} {s : WfState} {incoming : List StepEvent}
    {opts : RunOpts} {timer : Option Nat} {wc : Int} {sf : Nat} {m : String}
    (h : dryRun wf s incoming opts timer wc sf = .thrown m) :
    s.isRunning = true ∧ m = "Workflow is already running" := by
  unfold dryRun at h
  by_cases hr : s.isRunning
  · simp only [hr, if_true, RunRes.thrown.injEq] at h
    exact ⟨hr, h.symm⟩
  · simp only [hr, Bool.false_eq_true, if_false] at h
    split at h
    · cases h
    · cases h

/-- Inversion of a successful `run`: the results are `dryRun`'s values, the
timeout flag was down, and the final state is the committed one. -/
lemma run_out_inv {wf : Wf} {s : WfState} {incoming : List StepEvent}
    {opts : RunOpts} {timer : Option Nat} {wc : Int} {sf : Nat}
    {res : String → Option ResultV} {dr : DryOut} {s' : WfState}
    (h : run wf s incoming opts timer wc sf = (.out (res, dr), s')) :
    res = dr.values ∧ dr.timeout = false ∧
    dryRun wf s incoming opts timer wc sf = .out (dr, { s with isRunning := false }) ∧
    s' = { events := commitEvents s.events dr.newEvents,
           snapshots := commitSnapshots s.snapshots dr.values,
           isRunning := false } := by
  unfold run at h
  rcases hdr : dryRun wf s incoming opts timer wc sf with m | ⟨dr0, s1⟩ | _
  · rw [hdr] at h
    simp at h
  · have hs1 : s1 = { s with isRunning := false } := dryRun_out_state hdr
    rw [hdr] at h
    dsimp only at h
    by_cases ht : dr0.timeout
    · rw [if_pos ht] at h
      simp at h
    · rw [if_neg ht] at h
      have h1 := congrArg Prod.fst h
      have h2 := congrArg Prod.snd h
      simp only [RunRes.out.injEq, Prod.mk.injEq] at h1
      obtain ⟨hres, hdreq⟩ := h1
      subst hdreq
      refine ⟨hres.symm, by simpa using ht, by rw [← hs1], ?_⟩
      simp only at h2
      rw [← h2, hs1]
  · rw [hdr] at h
    simp at h

/-! ## Claim C5 — run: timeout raises, otherwise atomic commit -/

/-- A general-purpose concrete node for witnesses. -/
def nodeA : Node := { dependencies := [], compute := .ret (.num 1) }

/-- **C5.** If the underlying `dryRun` reports `timeout`, `run` raises
`"Timeout"` and the persistent state is exactly the pre-call state
(events and snapshots untouched; only the `isRunning` latch cycled);
otherwise `run` returns the result map and performs the whole commit —
the event appends and the snapshot writes — in one step. No partial
commit is observable in either case. -/
theorem claim5_timeout_atomic (wf : Wf) (s : WfState)
    (incoming : List StepEvent) (opts : RunOpts) (timer : Option Nat)
    (wc : Int) (sf : Nat) (dr : DryOut) (s1 : WfState)
    (hdr : dryRun wf s incoming opts timer wc sf = .out (dr, s1)) :
    (dr.timeout = true →
      run wf s incoming opts timer wc sf = (.thrown "Timeout", s1)
      ∧ s1.events = s.events ∧ s1.snapshots = s.snapshots)
    ∧ (dr.timeout = false →
      run wf s incoming opts timer wc sf =
        (.out (dr.values, dr),
         { events := commitEvents s.events dr.newEvents,
           snapshots := commitSnapshots s.snapshots dr.values,
           isRunning := false })) := by
  have hs1 : s1 = { s with isRunning := false } := dryRun_out_state hdr
  constructor
  · intro ht
    refine ⟨?_, by rw [hs1], by rw [hs1]⟩
    unfold run
    rw [hdr]
    dsimp only
    rw [if_pos ht]
  · intro ht
    unfold run
    rw [hdr]
    dsimp only
    rw [if_neg (by simp [ht]), hs1]

/-- Witness for C5: with `timeout: 100` armed and the timer oracle firing
before any node ran, `run` raises `"Timeout"` and the event log is
untouched; the same workflow without the timer firing commits normally. -/
theorem claim5_witness :
    (run [("a", nodeA)] spawnState [] { timeout := some 100 } (some 0) 0 1).1 =
      .thrown "Timeout"
    ∧ (run [("a", nodeA)] spawnState [] { timeout := some 100 } (some 0) 0 1).2.events "a" =
      spawnState.events "a" := by
  obtain ⟨hT, _⟩ := claim5_timeout_atomic [("a", nodeA)] spawnState []
    { timeout := some 100 } (some 0) 0 1 _ _ rfl
  obtain ⟨hrun, hev, _⟩ := hT rfl
  constructor
  · rw [hrun]
  · rw [hrun]

/-! ## Claim C6 — no default timeout -/

/-- **C6.** When `opts.timeout` is not provided, `dryRun` runs the whole
schedule to completion regardless of the timer oracle (no default such as
1000 ms is applied — the race is simply not armed), and the returned
`timeout` flag is `false`; conversely the race is armed only when
`opts.timeout` is set (and truthy). -/
theorem claim6_no_default_timeout (wf : Wf) (s : WfState)
    (incoming : List StepEvent) (opts : RunOpts) (wc : Int) (sf : Nat) :
    (opts.timeout = none →
      (∀ timer, dryRun wf s incoming opts timer wc sf =
        dryRun wf s incoming opts none wc sf)
      ∧ (∀ timer dr s', dryRun wf s incoming opts timer wc sf = .out (dr, s') →
          dr.timeout = false))
    ∧ (timeoutArmed opts = true → opts.timeout ≠ none) := by
  constructor
  · intro h
    have harm : timeoutArmed opts = false := by simp [timeoutArmed, h]
    constructor
    · intro timer
      unfold dryRun
      rw [harm]
      simp only [Bool.false_eq_true, if_false]
    · intro timer dr s' hdr
      unfold dryRun at hdr
      rw [harm] at hdr
      by_cases hr : s.isRunning
      · simp [hr] at hdr
      · simp only [hr, Bool.false_eq_true, if_false] at hdr
        split at hdr
        · cases hdr
        · simp only [RunRes.out.injEq, Prod.mk.injEq] at hdr
          rw [← hdr.1]
  · intro h hnone
    rw [timeoutArmed, hnone] at h
    cases h

/-- Witness for C6: a workflow run with no `timeout` option behaves
identically whether or not the timer oracle claims to fire, and its
`timeout` flag is false. -/
theorem claim6_witness :
    dryRun [("a", nodeA)] spawnState [] {} (some 0) 0 1 =
      dryRun [("a", nodeA)] spawnState [] {} none 0 1 :=
  ((claim6_no_default_timeout [("a", nodeA)] spawnState [] {} 0 1).1 rfl).1 (some 0)

/-! ## Dispatcher branch lemmas -/

/-- Replay hit: the cursor is inside `allEvents` and the event's path
matches the full key — the dispatcher consumes it and returns its value
(plus a `context_updated` warning when the recorded input keys differ). -/
lemma stepCall_replay_match {env : BodyEnv} {st : ExecSt} {ctx : StepContext}
    {ev : StepEvent} (hev : env.allEvents[st.idx]? = some ev)
    (hk : ev.k = env.currentKeys ++ [ctx.key]) :
    ∃ w, stepCall env st ctx = .val ev.v
      { st with idx := st.idx + 1,
                consumed := st.consumed ++ [{ toStepEvent := ev, c := ctx }],
                warns := st.warns ++ w } := by
  have hlt : st.idx < env.allEvents.length := (List.getElem?_eq_some.mp hev).1
  have hget : env.allEvents.get ⟨st.idx, hlt⟩ = ev := by
    rw [List.get_eq_getElem]
    exact (List.getElem?_eq_some.mp hev).2
  unfold stepCall
  rw [dif_pos hlt, hget, if_pos hk]
  by_cases hi : ev.i = ctx.inputs
  · exact ⟨[], by rw [if_pos hi]; simp⟩
  · refine ⟨[{ step := env.currentKeys ++ [ctx.key], old := ev.i, new := ctx.inputs }],
      by rw [if_neg hi]⟩

/-- Replay divergence: the cursor event's path differs from the full key —
the event is still consumed (pushed onto `newConsumedEvents`) and the
typed error is raised. -/
lemma stepCall_mismatch {env : BodyEnv} {st : ExecSt} {ctx : StepContext}
    {ev : StepEvent} (hev : env.allEvents[st.idx]? = some ev)
    (hk : ev.k ≠ env.currentKeys ++ [ctx.key]) :
    stepCall env st ctx = .fail
      ("Expected event " ++ keyStr (env.currentKeys ++ [ctx.key]) ++
        " but got " ++ keyStr ev.k ++ " instead")
      { st with idx := st.idx + 1,
                consumed := st.consumed ++ [{ toStepEvent := ev, c := ctx }] } := by
  have hlt : st.idx < env.allEvents.length := (List.getElem?_eq_some.mp hev).1
  have hget : env.allEvents.get ⟨st.idx, hlt⟩ = ev := by
    rw [List.get_eq_getElem]
    exact (List.getElem?_eq_some.mp hev).2
  unfold stepCall
  rw [dif_pos hlt, hget, if_neg hk]

/-- Cursor at or past the end of `allEvents`: the dispatcher raises
`InputInterrupt` with the full key and the declared schema, consuming
nothing. -/
lemma stepCall_frontier {env : BodyEnv} {st : ExecSt} {ctx : StepContext}
    (h : env.allEvents.length ≤ st.idx) :
    stepCall env st ctx =
      .intr { key := env.currentKeys ++ [ctx.key], schema := ctx.schema,
              inputs := ctx.inputs } st := by
  unfold stepCall
  rw [dif_neg (by omega)]

/-- Unfolding equation: a `step` call in the body goes through the
dispatcher. -/
lemma runBody_stepc (env : BodyEnv) (ctx : StepContext) (k : Val → Prog α)
    (st : ExecSt) :
    runBody env (.stepc ctx k) st =
      match stepCall env st ctx with
      | .val v st' => runBody env (k v) st'
      | .intr f st' => (.inputIntr f none, st')
      | .fail m st' => (.errOut m, st') := by
  rcases h : stepCall env st ctx with ⟨v, st'⟩ | ⟨f, st'⟩ | ⟨m, st'⟩ <;>
    simp only [runBody, h]

/-- Unfolding equation for a `capture` call. -/
lemma runBody_capture (env : BodyEnv) (ctx : StepContext) (fn : CapFn)
    (k : Val → Prog α) (st : ExecSt) :
    runBody env (.capture ctx fn k) st =
      (match stepCall env st { ctx with key := "capture:" ++ ctx.key } with
      | .val v st' => runBody env (k v) st'
      | .fail m st' => (.errOut m, st')
      | .intr _ st' =>
        match fn with
        | .sync f =>
          runBody env (k (f env.nowVal))
            { st' with caps := st'.caps ++ [env.currentKeys ++ ["capture:" ++ ctx.key]],
                       tempNew := st'.tempNew ++
                         [mkTempEvent env.currentKeys ("capture:" ++ ctx.key) (f env.nowVal) env.nowVal ctx],
                       consumed := st'.consumed ++
                         [mkTempEvent env.currentKeys ("capture:" ++ ctx.key) (f env.nowVal) env.nowVal ctx] }
        | .async r =>
          (.promiseIntr ("capture:" ++ ctx.key) r ctx,
            { st' with caps := st'.caps ++ [env.currentKeys ++ ["capture:" ++ ctx.key]] })) := by
  rcases h : stepCall env st { ctx with key := "capture:" ++ ctx.key } with ⟨v, st'⟩ | ⟨f, st'⟩ | ⟨m, st'⟩ <;>
    simp only [runBody, h]

/-! ## executeNode on a dependency-free, saga-free node -/

/-- The body environment of the (single) promise-loop iteration of a
dependency-free, saga-free node executed from a fresh cursor. -/
def simpleEnv (n : String) (P I : List StepEvent)
    (tr : String → Option ResultV) (nv : Int) : BodyEnv :=
  { currentKeys := [n], allEvents := P ++ I, deps := tr, nowVal := nv }

lemma executeNode_body_err {p : Prog Val} {tr : String → Option ResultV}
    {P I : List StepEvent} {nv : Int} {n : String} {snap : Option (Nat × Val)}
    {sf : Nat} {m : String} {st' : ExecSt}
    (hb : runBody (simpleEnv n P I tr nv) p ExecSt.init = (.errOut m, st')) :
    executeNode { dependencies := [], compute := p, saga := none } tr P I nv [n] snap sf =
      some (.err m, st') := by
  unfold executeNode
  rw [if_neg (by simp)]
  rw [show MAX_PROMISES = 999 + 1 from rfl]
  unfold promiseLoop
  unfold iterateOnce
  simp only [show ExecSt.init.tempNew = [] from rfl, List.map_nil, List.append_nil]
  rw [show (runBody { currentKeys := [n], allEvents := P ++ I, deps := tr, nowVal := nv }
      p ExecSt.init) = (.errOut m, st') from hb]

lemma executeNode_body_intr {p : Prog Val} {tr : String → Option ResultV}
    {P I : List StepEvent} {nv : Int} {n : String} {snap : Option (Nat × Val)}
    {sf : Nat} {f : FullStepContext} {w : Option Int} {st' : ExecSt}
    (hb : runBody (simpleEnv n P I tr nv) p ExecSt.init = (.inputIntr f w, st')) :
    executeNode { dependencies := [], compute := p, saga := none } tr P I nv [n] snap sf =
      some (mkIntrResult f w .undef 0, st') := by
  unfold executeNode
  rw [if_neg (by simp)]
  rw [show MAX_PROMISES = 999 + 1 from rfl]
  unfold promiseLoop
  unfold iterateOnce
  simp only [show ExecSt.init.tempNew = [] from rfl, List.map_nil, List.append_nil]
  rw [show (runBody { currentKeys := [n], allEvents := P ++ I, deps := tr, nowVal := nv }
      p ExecSt.init) = (.inputIntr f w, st') from hb]

lemma executeNode_body_done {p : Prog Val} {tr : String → Option ResultV}
    {P I : List StepEvent} {nv : Int} {n : String} {snap : Option (Nat × Val)}
    {sf : Nat} {v : Val} {st' : ExecSt}
    (hb : runBody (simpleEnv n P I tr nv) p ExecSt.init = (.ok v, st')) :
    executeNode { dependencies := [], compute := p, saga := none } tr P I nv [n] snap sf =
      some (.done v, st') := by
  unfold executeNode
  rw [if_neg (by simp)]
  rw [show MAX_PROMISES = 999 + 1 from rfl]
  unfold promiseLoop
  unfold iterateOnce
  simp only [show ExecSt.init.tempNew = [] from rfl, List.map_nil, List.append_nil]
  rw [show (runBody { currentKeys := [n], allEvents := P ++ I, deps := tr, nowVal := nv }
      p ExecSt.init) = (.ok v, st') from hb]

/-! ## Claim C1 — replay dispatcher contract -/

/-- **C1.** The replay dispatcher contract: (1) when the cursor is inside
`allEvents` and the cursor event's path equals the full key, an in-body
`step` call returns that event's value and the body continues; (2) when
the paths differ, the body ends with the typed error
`"Expected event <fullKey> but got <event.k> instead"`; (3) on a node this
surfaces as an `err` Result from `executeNode`; (4) the run itself does
not throw — `dryRun` throws only the concurrent-run guard; (5) when the
cursor is at or past the end of `allEvents` the step call raises an
`InputInterrupt`, (6) which the executor converts into an `intr` Result
carrying the full key and schema. -/
theorem claim1_replay_dispatcher :
    (∀ (env : BodyEnv) (st : ExecSt) (ctx : StepContext) (k : Val → Prog Val)
        (ev : StepEvent),
      env.allEvents[st.idx]? = some ev →
      ev.k = env.currentKeys ++ [ctx.key] →
      ∃ st', stepCall env st ctx = .val ev.v st'
        ∧ runBody env (.stepc ctx k) st = runBody env (k ev.v) st')
    ∧ (∀ (env : BodyEnv) (st : ExecSt) (ctx : StepContext) (k : Val → Prog Val)
        (ev : StepEvent),
      env.allEvents[st.idx]? = some ev →
      ev.k ≠ env.currentKeys ++ [ctx.key] →
      runBody env (.stepc ctx k) st =
        (.errOut ("Expected event " ++ keyStr (env.currentKeys ++ [ctx.key]) ++
          " but got " ++ keyStr ev.k ++ " instead"),
         { st with idx := st.idx + 1,
                   consumed := st.consumed ++ [{ toStepEvent := ev, c := ctx }] }))
    ∧ (∀ (n : String) (ctx : StepContext) (k : Val → Prog Val)
        (tr : String → Option ResultV) (P I : List StepEvent) (ev : StepEvent)
        (nv : Int) (snap : Option (Nat × Val)) (sf : Nat),
      (P ++ I)[0]? = some ev →
      ev.k ≠ [n, ctx.key] →
      executeNode { dependencies := [], compute := .stepc ctx k, saga := none }
          tr P I nv [n] snap sf =
        some (.err ("Expected event " ++ keyStr [n, ctx.key] ++
            " but got " ++ keyStr ev.k ++ " instead"),
          { ExecSt.init with idx := 1, consumed := [{ toStepEvent := ev, c := ctx }] }))
    ∧ (∀ (wf : Wf) (s : WfState) (incoming : List StepEvent) (opts : RunOpts)
        (timer : Option Nat) (wc : Int) (sf : Nat) (m : String),
      dryRun wf s incoming opts timer wc sf = .thrown m → s.isRunning = true)
    ∧ (∀ (env : BodyEnv) (st : ExecSt) (ctx : StepContext) (k : Val → Prog Val),
      env.allEvents.length ≤ st.idx →
      runBody env (.stepc ctx k) st =
        (.inputIntr { key := env.currentKeys ++ [ctx.key], schema := ctx.schema,
                      inputs := ctx.inputs } none, st))
    ∧ (∀ (n : String) (ctx : StepContext) (k : Val → Prog Val)
        (tr : String → Option ResultV) (nv : Int) (snap : Option (Nat × Val)) (sf : Nat),
      executeNode { dependencies := [], compute := .stepc ctx k, saga := none }
          tr [] [] nv [n] snap sf =
        some (.intr { key := [n, ctx.key], schema := ctx.schema, inputs := ctx.inputs }
          none none none, ExecSt.init)) := by
  refine ⟨?_, ?_, ?_, ?_, ?_, ?_⟩
  · intro env st ctx k ev hev hk
    obtain ⟨w, hw⟩ := stepCall_replay_match hev hk
    exact ⟨_, hw, by rw [runBody_stepc, hw]⟩
  · intro env st ctx k ev hev hk
    rw [runBody_stepc, stepCall_mismatch hev hk]
  · intro n ctx k tr P I ev nv snap sf hev hk
    refine executeNode_body_err ?_
    rw [runBody_stepc, @stepCall_mismatch (simpleEnv n P I tr nv) ExecSt.init ctx ev hev (by simpa [simpleEnv] using hk)]
    rfl
  · intro wf s incoming opts timer wc sf m h
    exact (dryRun_thrown_running h).1
  · intro env st ctx k h
    rw [runBody_stepc, stepCall_frontier h]
  · intro n ctx k tr nv snap sf
    have hb : runBody (simpleEnv n [] [] tr nv) (.stepc ctx k) ExecSt.init =
        (.inputIntr { key := [n, ctx.key], schema := ctx.schema, inputs := ctx.inputs }
          none, ExecSt.init) := by
      rw [runBody_stepc, stepCall_frontier (by simp [simpleEnv, ExecSt.init])]
      rfl
    have h := @executeNode_body_intr _ tr _ _ nv n snap sf _ _ _ hb
    simpa [mkIntrResult, Val.truthy] using h

/-- Witness for C1: concrete instances of the three dispatcher branches.
Node `c` expects step `need`; the event addressed to `["c","x"]` at the
cursor yields an `err` with the typed message, and a run with no events
yields an `intr` for the full key `["c","need"]`. -/
theorem claim1_witness :
    executeNode
      { dependencies := [], compute := .stepc { key := "need" } (fun v => .ret v), saga := none }
      (fun _ => none) [] [{ k := ["c", "x"], v := .num 2, ts := 0 }] 0 ["c"] none 5 =
      some (.err "Expected event c,need but got c,x instead",
        { ExecSt.init with
            idx := 1,
            consumed := [{ k := ["c", "x"], v := .num 2, ts := 0, i := none, c := { key := "need" } }] })
    ∧ executeNode
      { dependencies := [], compute := .stepc { key := "need" } (fun v => .ret v), saga := none }
      (fun _ => none) [] [] 0 ["c"] none 5 =
      some (.intr { key := ["c", "need"] } none none none, ExecSt.init) := by
  constructor
  · have h := (claim1_replay_dispatcher).2.2.1 "c" { key := "need" } (fun v => .ret v)
      (fun _ => none) [] [{ k := ["c", "x"], v := .num 2, ts := 0 }]
      { k := ["c", "x"], v := .num 2, ts := 0 } 0 none 5 (by rfl) (by decide)
    simpa using h
  · have h := (claim1_replay_dispatcher).2.2.2.2.2 "c" { key := "need" }
      (fun v => .ret v) (fun _ => none) 0 none 5
    simpa using h

/-! ## Scheduler-level lemmas -/

/-- Every entry of the result map produced by `executeNodes` either was
there before or is the `executeNode` output of the looked-up node,
executed against that key's persisted events, its slice of the incoming
events and its snapshot. -/
lemma executeNodes_result_source {wf : Wf} {s : WfState}
    {incoming : List StepEvent} {nv : Int} {sf : Nat} :
    ∀ {order : List String} {tr : String → Option ResultV} {acc : GlobalAcc}
      {tr' : String → Option ResultV} {acc' : GlobalAcc},
      executeNodes wf s incoming nv sf order tr acc = some (tr', acc') →
      ∀ k r, tr' k = some r →
        tr k = some r ∨
        ∃ node trPrev st,
          findNode wf k = some node ∧
          executeNode node trPrev (s.events k)
            (incoming.filter (fun e => e.k.head? = some k)) nv [k]
            (s.snapshots k) sf = some (r, st) := by
  intro order
  induction order with
  | nil =>
    intro tr acc tr' acc' h k r hk
    unfold executeNodes at h
    simp only [Option.some.injEq, Prod.mk.injEq] at h
    rw [← h.1] at hk
    exact Or.inl hk
  | cons n rest ih =>
    intro tr acc tr' acc' h k r hk
    unfold executeNodes at h
    rcases hfind : findNode wf n with _ | node
    · rw [hfind] at h
      dsimp only at h
      exact ih h k r hk
    · rw [hfind] at h
      dsimp only at h
      rcases hex : executeNode node tr (s.events n)
          (incoming.filter (fun e => e.k.head? = some n)) nv [n]
          (s.snapshots n) sf with _ | ⟨r0, st0⟩
      · rw [hex] at h
        cases h
      · rw [hex] at h
        dsimp only at h
        rcases ih h k r hk with hbase | hrec
        · by_cases hkn : k = n
          · subst hkn
            rw [Function.update_same] at hbase
            exact Or.inr ⟨node, tr, st0, hfind, by rw [← Option.some_inj.mp hbase]; exact hex⟩
          · rw [Function.update_noteq hkn] at hbase
            exact Or.inl hbase
        · exact Or.inr hrec

/-- Shape of every `intr` Result returned by `executeNode` (it is built by
`mkIntrResult`): the `value` field is present only when truthy, the
`eventIdx` field only when nonzero, and a saga-free node carries
neither. -/
lemma executeNode_intr_shape {node : Node} {tr : String → Option ResultV}
    {P I : List StepEvent} {nv : Int} {ck : List String}
    {snap : Option (Nat × Val)} {sf : Nat} {f : FullStepContext}
    {w : Option Int} {vo : Option Val} {eo : Option Nat} {st : ExecSt}
    (h : executeNode node tr P I nv ck snap sf = some (.intr f w vo eo, st)) :
    (vo = none ∨ ∃ v, vo = some v ∧ v.truthy = true)
    ∧ (eo = none ∨ ∃ e, eo = some e ∧ e ≠ 0)
    ∧ (node.saga = none → vo = none ∧ eo = none) := by
  unfold executeNode at h
  by_cases hne : node.dependencies.filter (fun d => depUnsatisfied (tr d)) = []
  · simp only [hne, ne_eq, not_true_eq_false, if_false] at h
    exact promiseLoop_intr_shape h
  · simp only [hne, ne_eq, not_false_eq_true, if_true, Option.some.injEq,
      Prod.mk.injEq] at h
    cases h.1

/-- Every Result reported by a successful `dryRun` is the output of
`executeNode` on the looked-up node, run against that key's persisted
events, snapshot and incoming slice. -/
lemma dryRun_result_source {wf : Wf} {s : WfState} {incoming : List StepEvent}
    {opts : RunOpts} {timer : Option Nat} {wc : Int} {sf : Nat}
    {dr : DryOut} {s1 : WfState}
    (h : dryRun wf s incoming opts timer wc sf = .out (dr, s1)) :
    ∀ k r, dr.values k = some r →
      ∃ node trPrev st,
        findNode wf k = some node ∧
        executeNode node trPrev (s.events k)
          (incoming.filter (fun e => e.k.head? = some k)) (getNowVal opts wc) [k]
          (s.snapshots k) sf = some (r, st) := by
  unfold dryRun at h
  by_cases hr : s.isRunning
  · simp [hr] at h
  · simp only [hr, Bool.false_eq_true, if_false] at h
    split at h
    · cases h
    · rename_i tr acc heq
      simp only [RunRes.out.injEq, Prod.mk.injEq] at h
      intro k r hk
      have hvals : dr.values = tr := by rw [← h.1]
      rcases executeNodes_result_source heq k r (by rw [← hvals]; exact hk) with
        hbase | hsrc
      · cases hbase
      · exact hsrc

/-! ## Claim C7 — snapshot persistence -/

/-- **C7.** After a successful `run`, the snapshot store holds a new entry
for `k` exactly when `k`'s result is `intr` carrying a (necessarily
nonzero) `eventIdx`, and the stored pair is `(eventIdx, result.value)`
(an absent `value` field reading as `undefined`); every `intr` with an
`eventIdx` field has it nonzero; a node without a saga never produces an
`eventIdx` (so it never gets a snapshot); and a saga interrupted at
`eventIdx = 0` yields no `eventIdx` field (so no snapshot either). -/
theorem claim7_snapshot_persist (wf : Wf) (s : WfState)
    (incoming : List StepEvent) (opts : RunOpts) (timer : Option Nat)
    (wc : Int) (sf : Nat) (res : String → Option ResultV) (dr : DryOut)
    (s' : WfState)
    (h : run wf s incoming opts timer wc sf = (.out (res, dr), s')) :
    (∀ k, s'.snapshots k =
      match res k with
      | some (.intr _ _ v (some e)) =>
        if e ≠ 0 then some (e, jsField v) else s.snapshots k
      | _ => s.snapshots k)
    ∧ (∀ k f w vo eo, res k = some (.intr f w vo eo) →
        eo = none ∨ ∃ e, eo = some e ∧ e ≠ 0)
    ∧ (∀ k node f w vo eo, findNode wf k = some node → node.saga = none →
        res k = some (.intr f w vo eo) → vo = none ∧ eo = none)
    ∧ (∀ f w v, intrEventIdxField (mkIntrResult f w v 0) = none) := by
  obtain ⟨hres, htime, hdr, hs'⟩ := run_out_inv h
  refine ⟨?_, ?_, ?_, ?_⟩
  · intro k
    rw [hs', ← hres]
    rfl
  · intro k f w vo eo hk
    obtain ⟨node, trPrev, st, hfind, hex⟩ :=
      dryRun_result_source hdr k (.intr f w vo eo) (by rw [← hres]; exact hk)
    exact (executeNode_intr_shape hex).2.1
  · intro k node f w vo eo hfind hsaga hk
    obtain ⟨node', trPrev, st, hfind', hex⟩ :=
      dryRun_result_source hdr k (.intr f w vo eo) (by rw [← hres]; exact hk)
    have hnn : node' = node := by
      rw [hfind] at hfind'
      exact (Option.some_inj.mp hfind').symm
    subst hnn
    exact (executeNode_intr_shape hex).2.2 hsaga
  · intro f w v
    simp [mkIntrResult, intrEventIdxField]

/-- A saga node used to witness C7: compute returns `5`, the saga adds the
stepped value each iteration. -/
def c7saga : Node :=
  { dependencies := [],
    compute := .ret (.num 5),
    saga := some (fun v => .stepc { key := "addition" }
      (fun x => .ret (SagaAct.cont, match v, x with
        | .num a, .num b => .num (a + b)
        | _, _ => .undef))) }

/-- The state after the first run of the C7 witness workflow. -/
def c7s1 : WfState := (run [("n1", c7saga)] spawnState [] {} none 0 5).2

/-- Witness for C7: the first run of the saga interrupts before consuming
any event (`eventIdx = 0`) and writes no snapshot; the second run consumes
one event and then interrupts, persisting `snapshots["n1"] = (1, 8)`. -/
theorem claim7_witness :
    (run [("n1", c7saga)] spawnState [] {} none 0 5).2.snapshots "n1" = none
    ∧ (run [("n1", c7saga)] c7s1
        [{ k := ["n1", "addition"], v := .num 3, ts := 0 }] {} none 0 5).2.snapshots "n1" =
      some (1, .num 8) := by
  constructor
  · exact ((claim7_snapshot_persist [("n1", c7saga)] spawnState [] {} none 0 5
      _ _ _ rfl).1 "n1").trans (by rfl)
  · exact ((claim7_snapshot_persist [("n1", c7saga)] c7s1
      [{ k := ["n1", "addition"], v := .num 3, ts := 0 }] {} none 0 5
      _ _ _ rfl).1 "n1").trans (by rfl)

/-! ## Claim C10 — commit re-appends replayed events -/

/-- The commit loop appends, per node key, exactly the consumed events
addressed to that key (in order, context dropped). -/
lemma commitEvents_filter :
    ∀ (L : List StepEventC) (events : String → List StepEvent) (k : String),
      commitEvents events L k =
        events k ++ (L.filter (fun e => e.k.head? = some k)).map (·.toStepEvent) := by
  intro L
  induction L with
  | nil => intro events k; simp [commitEvents]
  | cons e rest ih =>
    intro events k
    unfold commitEvents
    rcases hh : e.k.head? with _ | n
    · dsimp only
      rw [ih]
      have : (List.filter (fun e => decide (e.k.head? = some k)) (e :: rest)) =
          List.filter (fun e => decide (e.k.head? = some k)) rest := by
        rw [List.filter_cons_of_neg]
        simp [hh]
      rw [this]
    · dsimp only
      rw [ih]
      by_cases hkn : n = k
      · rw [hkn, Function.update_same]
        have hfil : (List.filter (fun e => decide (e.k.head? = some k)) (e :: rest)) =
            e :: List.filter (fun e => decide (e.k.head? = some k)) rest := by
          rw [List.filter_cons_of_pos]
          simp [hh, hkn]
        rw [hfil]
        simp
      · rw [Function.update_noteq (by exact fun hc => hkn hc.symm)]
        have : (List.filter (fun e => decide (e.k.head? = some k)) (e :: rest)) =
            List.filter (fun e => decide (e.k.head? = some k)) rest := by
          rw [List.filter_cons_of_neg]
          simp [hh, hkn]
        rw [this]

/-- **C10.** A successful `run` appends, to each `events[k]`, every
consumed event addressed to `k` — including events that were merely
*replayed* from the persisted log. Hence for a node whose body completes
by pure replay of its `n` persisted events (consuming exactly them and
issuing no new effect), `run([])` does not leave `events[k]` unchanged:
the log doubles, growing by `n`. -/
theorem claim10_replay_reappends (wf : Wf) (s : WfState)
    (incoming : List StepEvent) (opts : RunOpts) (timer : Option Nat)
    (wc : Int) (sf : Nat) (res : String → Option ResultV) (dr : DryOut)
    (s' : WfState)
    (h : run wf s incoming opts timer wc sf = (.out (res, dr), s')) :
    (∀ k, s'.events k =
      s.events k ++ (dr.newEvents.filter (fun e => e.k.head? = some k)).map (·.toStepEvent))
    ∧ (∀ k, (dr.newEvents.filter (fun e => e.k.head? = some k)).map (·.toStepEvent) =
          s.events k →
        s'.events k = s.events k ++ s.events k
        ∧ (s'.events k).length = 2 * (s.events k).length
        ∧ (s.events k ≠ [] → s'.events k ≠ s.events k)) := by
  obtain ⟨hres, htime, hdr, hs'⟩ := run_out_inv h
  have hevents : ∀ k, s'.events k =
      s.events k ++ (dr.newEvents.filter (fun e => e.k.head? = some k)).map (·.toStepEvent) := by
    intro k
    rw [hs']
    exact commitEvents_filter dr.newEvents s.events k
  refine ⟨hevents, ?_⟩
  intro k hpure
  have h1 : s'.events k = s.events k ++ s.events k := by
    rw [hevents k, hpure]
  refine ⟨h1, by rw [h1]; simp [Nat.two_mul], ?_⟩
  intro hne hc
  rw [h1] at hc
  have := congrArg List.length hc
  simp at this
  exact hne this

/-- A node whose body replays two persisted steps and completes. -/
def c10node : Node :=
  { dependencies := [],
    compute := .stepc { key := "a" } (fun _ => .stepc { key := "b" } (fun _ => .ret (.num 1))),
    saga := none }

/-- A state whose log for `n` already holds the two events the body
replays. -/
def c10state : WfState :=
  { events := fun k => if k = "n" then
      [{ k := ["n", "a"], v := .num 1, ts := 0 }, { k := ["n", "b"], v := .num 2, ts := 0 }]
    else [],
    snapshots := fun _ => none,
    isRunning := false }

/-- Witness for C10: a pure-replay `run([])` on a log of two events leaves
a log of four — the two replayed events are re-appended. -/
theorem claim10_witness :
    (run [("n", c10node)] c10state [] {} none 0 5).2.events "n" =
      [{ k := ["n", "a"], v := .num 1, ts := 0 }, { k := ["n", "b"], v := .num 2, ts := 0 },
       { k := ["n", "a"], v := .num 1, ts := 0 }, { k := ["n", "b"], v := .num 2, ts := 0 }] := by
  have h := ((claim10_replay_reappends [("n", c10node)] c10state [] {} none 0 5
    _ _ _ rfl).2 "n" (by rfl)).1
  exact h.trans (by rfl)

/-! ## Heads discipline: everything a node consumes or synthesizes is
addressed to that node -/

/-- The state carried by a dispatcher outcome. -/
def StepRes.toSt : StepRes → ExecSt
  | .val _ s => s
  | .intr _ s => s
  | .fail _ s => s

/-- One dispatcher call leaves `tempNew`, `warns` (up to appends) and
`caps` unchanged and appends to `consumed` at most one event, drawn from
`allEvents`. -/
lemma stepCall_st_spec (env : BodyEnv) (st : ExecSt) (ctx : StepContext) :
    (stepCall env st ctx).toSt.tempNew = st.tempNew
    ∧ (stepCall env st ctx).toSt.caps = st.caps
    ∧ ((stepCall env st ctx).toSt.consumed = st.consumed ∨
       ∃ ev, ev ∈ env.allEvents ∧
         (stepCall env st ctx).toSt.consumed =
           st.consumed ++ [{ toStepEvent := ev, c := ctx }]) := by
  unfold stepCall
  by_cases h : st.idx < env.allEvents.length
  · rw [dif_pos h]
    by_cases hk : (env.allEvents.get ⟨st.idx, h⟩).k = env.currentKeys ++ [ctx.key]
    · rw [if_pos hk]
      by_cases hi : (env.allEvents.get ⟨st.idx, h⟩).i = ctx.inputs
      · rw [if_pos hi]
        exact ⟨rfl, rfl, Or.inr ⟨_, env.allEvents.get_mem _ _, rfl⟩⟩
      · rw [if_neg hi]
        exact ⟨rfl, rfl, Or.inr ⟨_, env.allEvents.get_mem _ _, rfl⟩⟩
    · rw [if_neg hk]
      exact ⟨rfl, rfl, Or.inr ⟨_, env.allEvents.get_mem _ _, rfl⟩⟩
  · rw [dif_neg h]
    exact ⟨rfl, rfl, Or.inl rfl⟩

/-- The per-node head invariant: everything recorded so far is addressed
to node `n`. -/
def HeadsInv (n : String) (st : ExecSt) : Prop :=
  (∀ ec ∈ st.consumed, ec.k.head? = some n)
  ∧ (∀ ec ∈ st.tempNew, ec.k.head? = some n)
  ∧ (∀ cp ∈ st.caps, cp.head? = some n)

lemma headsInv_init (n : String) : HeadsInv n ExecSt.init := by
  refine ⟨?_, ?_, ?_⟩ <;> intro x hx <;> cases hx

/-- `runBody` preserves the head invariant when the node's event list is
addressed to it. -/
lemma runBody_heads {n : String} {env : BodyEnv}
    (hck : env.currentKeys = [n])
    (hev : ∀ ev ∈ env.allEvents, ev.k.head? = some n) :
    ∀ (p : Prog α) (st : ExecSt) (out : BodyOut α) (st' : ExecSt),
      runBody env p st = (out, st') → HeadsInv n st → HeadsInv n st' := by
  intro p
  induction p with
  | ret a => intro st out st' h hinv; cases h; exact hinv
  | throwE m => intro st out st' h hinv; cases h; exact hinv
  | getv d k ih =>
    intro st out st' h hinv
    exact ih _ st out st' h hinv
  | waitU t k ih =>
    intro st out st' h hinv
    unfold runBody at h
    by_cases hlt : env.nowVal < t
    · rw [if_pos hlt] at h
      cases h
      exact hinv
    · rw [if_neg hlt] at h
      exact ih st out st' h hinv
  | stepc ctx k ih =>
    intro st out st' h hinv
    rw [runBody_stepc] at h
    obtain ⟨ht, hc, hcons⟩ := stepCall_st_spec env st ctx
    have hinv1 : HeadsInv n (stepCall env st ctx).toSt := by
      refine ⟨?_, ?_, ?_⟩
      · intro ec hec
        rcases hcons with heq | ⟨ev, hmem, heq⟩
        · exact hinv.1 ec (heq ▸ hec)
        · rw [heq] at hec
          rcases List.mem_append.mp hec with h1 | h1
          · exact hinv.1 ec h1
          · rcases List.mem_singleton.mp h1 with rfl
            exact hev ev hmem
      · intro ec hec
        exact hinv.2.1 ec (ht ▸ hec)
      · intro cp hcp
        exact hinv.2.2 cp (hc ▸ hcp)
    rcases hsc : stepCall env st ctx with ⟨v, st1⟩ | ⟨f, st1⟩ | ⟨m, st1⟩ <;>
      rw [hsc] at h hinv1
    · exact ih v st1 out st' h hinv1
    · cases h; exact hinv1
    · cases h; exact hinv1
  | capture ctx fn k ih =>
    intro st out st' h hinv
    rw [runBody_capture] at h
    obtain ⟨ht, hc, hcons⟩ := stepCall_st_spec env st { ctx with key := "capture:" ++ ctx.key }
    have hinv1 : HeadsInv n (stepCall env st { ctx with key := "capture:" ++ ctx.key }).toSt := by
      refine ⟨?_, ?_, ?_⟩
      · intro ec hec
        rcases hcons with heq | ⟨ev, hmem, heq⟩
        · exact hinv.1 ec (heq ▸ hec)
        · rw [heq] at hec
          rcases List.mem_append.mp hec with h1 | h1
          · exact hinv.1 ec h1
          · rcases List.mem_singleton.mp h1 with rfl
            exact hev ev hmem
      · intro ec hec
        exact hinv.2.1 ec (ht ▸ hec)
      · intro cp hcp
        exact hinv.2.2 cp (hc ▸ hcp)
    rcases hsc : stepCall env st { ctx with key := "capture:" ++ ctx.key } with
        ⟨v, st1⟩ | ⟨f, st1⟩ | ⟨m, st1⟩ <;>
      rw [hsc] at h hinv1
    · exact ih v st1 out st' h hinv1
    · rcases fn with f' | r
      · refine ih _ _ out st' h ?_
        refine ⟨?_, ?_, ?_⟩
        · intro ec hec
          rcases List.mem_append.mp hec with h1 | h1
          · exact hinv1.1 ec h1
          · rcases List.mem_singleton.mp h1 with rfl
            simp [mkTempEvent, hck]
        · intro ec hec
          rcases List.mem_append.mp hec with h1 | h1
          · exact hinv1.2.1 ec h1
          · rcases List.mem_singleton.mp h1 with rfl
            simp [mkTempEvent, hck]
        · intro cp hcp
          rcases List.mem_append.mp hcp with h1 | h1
          · exact hinv1.2.2 cp h1
          · rcases List.mem_singleton.mp h1 with rfl
            simp [hck]
      · cases h
        refine ⟨hinv1.1, hinv1.2.1, ?_⟩
        intro cp hcp
        rcases List.mem_append.mp hcp with h1 | h1
        · exact hinv1.2.2 cp h1
        · rcases List.mem_singleton.mp h1 with rfl
          simp [hck]
    · cases h; exact hinv1

/-- The saga loop preserves the head invariant. -/
lemma sagaLoop_heads {n : String} {env : BodyEnv}
    {sg : Val → Prog (SagaAct × Val)}
    (hck : env.currentKeys = [n])
    (hev : ∀ ev ∈ env.allEvents, ev.k.head? = some n) :
    ∀ (fuel : Nat) (value : Val) (st : ExecSt) (io : IterOut) (st' : ExecSt),
      sagaLoop env sg fuel value st = some (io, st') → HeadsInv n st → HeadsInv n st' := by
  intro fuel
  induction fuel with
  | zero => intro value st io st' h; cases h
  | succ f ih =>
    intro value st io st' h hinv
    unfold sagaLoop at h
    rcases hr : runBody env (sg value) st with ⟨out, st1⟩
    rw [hr] at h
    have hinv1 := runBody_heads hck hev (sg value) st out st1 hr hinv
    cases out with
    | ok a =>
      rcases a with ⟨act, newValue⟩
      dsimp only at h
      by_cases hact : act = SagaAct.halt
      · rw [if_pos hact] at h
        simp only [Option.some.injEq, Prod.mk.injEq] at h
        rw [← h.2]
        exact hinv1
      · rw [if_neg hact] at h
        exact ih newValue st1 io st' h hinv1
    | inputIntr fc w =>
      simp only [Option.some.injEq, Prod.mk.injEq] at h
      rw [← h.2]
      exact hinv1
    | promiseIntr sk r c =>
      simp only [Option.some.injEq, Prod.mk.injEq] at h
      rw [← h.2]
      exact hinv1
    | errOut m =>
      simp only [Option.some.injEq, Prod.mk.injEq] at h
      rw [← h.2]
      exact hinv1

/-- One promise-loop iteration preserves the head invariant (given that
the node's persisted and incoming events are addressed to it). -/
lemma iterateOnce_heads {n : String} {node : Node} {P I : List StepEvent}
    {deps : String → Option ResultV} {nv : Int} {snap : Option (Nat × Val)}
    {sf : Nat} {st0 : ExecSt} {io : IterOut} {st' : ExecSt}
    (hP : ∀ ev ∈ P, ev.k.head? = some n)
    (hI : ∀ ev ∈ I, ev.k.head? = some n)
    (h : iterateOnce node P I deps nv [n] snap sf st0 = some (io, st'))
    (hinv : HeadsInv n st0) : HeadsInv n st' := by
  have hev : ∀ ev ∈ P ++ I ++ st0.tempNew.map (·.toStepEvent), ev.k.head? = some n := by
    intro ev hmem
    rcases List.mem_append.mp hmem with h1 | h1
    · rcases List.mem_append.mp h1 with h2 | h2
      · exact hP ev h2
      · exact hI ev h2
    · obtain ⟨ec, hec, rfl⟩ := List.mem_map.mp h1
      exact hinv.2.1 ec hec
  unfold iterateOnce at h
  rcases hsaga : node.saga with _ | sg <;> rw [hsaga] at h <;> dsimp only at h
  · rcases hr : runBody
        { currentKeys := [n], allEvents := P ++ I ++ st0.tempNew.map (·.toStepEvent),
          deps := deps, nowVal := nv } node.compute st0 with ⟨out, st1⟩
    rw [hr] at h
    have hinv1 := runBody_heads rfl hev node.compute st0 out st1 hr hinv
    cases out <;> simp only [Option.some.injEq, Prod.mk.injEq] at h <;>
      rw [← h.2] <;> exact hinv1
  · rcases snap with _ | ⟨i, v⟩
    · dsimp only at h
      rcases hr : runBody
          { currentKeys := [n], allEvents := P ++ I ++ st0.tempNew.map (·.toStepEvent),
            deps := deps, nowVal := nv } node.compute st0 with ⟨out, st1⟩
      rw [hr] at h
      have hinv1 := runBody_heads rfl hev node.compute st0 out st1 hr hinv
      cases out with
      | ok a =>
        dsimp only at h
        exact sagaLoop_heads rfl hev sf a st1 io st' h hinv1
      | inputIntr fc w =>
        simp only [Option.some.injEq, Prod.mk.injEq] at h
        rw [← h.2]; exact hinv1
      | promiseIntr sk r c =>
        simp only [Option.some.injEq, Prod.mk.injEq] at h
        rw [← h.2]; exact hinv1
      | errOut m =>
        simp only [Option.some.injEq, Prod.mk.injEq] at h
        rw [← h.2]; exact hinv1
    · dsimp only at h
      exact sagaLoop_heads rfl hev sf v { st0 with idx := i } io st' h
        ⟨hinv.1, hinv.2.1, hinv.2.2⟩

/-- The promise loop preserves the head invariant. -/
lemma promiseLoop_heads {n : String} {node : Node} {P I : List StepEvent}
    {deps : String → Option ResultV} {nv : Int} {snap : Option (Nat × Val)}
    {sf : Nat}
    (hP : ∀ ev ∈ P, ev.k.head? = some n)
    (hI : ∀ ev ∈ I, ev.k.head? = some n) :
    ∀ (budget : Nat) (st : ExecSt) (r : ResultV) (st' : ExecSt),
      promiseLoop node P I deps nv [n] snap sf budget st = some (r, st') →
      HeadsInv n st → HeadsInv n st' := by
  intro budget
  induction budget with
  | zero =>
    intro st r st' h hinv
    simp only [promiseLoop, Option.some.injEq, Prod.mk.injEq] at h
    rw [← h.2]
    exact hinv
  | succ b ih =>
    intro st r st' h hinv
    unfold promiseLoop at h
    rcases hit : iterateOnce node P I deps nv [n] snap sf st with _ | ⟨io, st1⟩
    · rw [hit] at h; cases h
    · rw [hit] at h
      have hinv1 := iterateOnce_heads hP hI hit hinv
      cases io with
      | done v =>
        simp only [Option.some.injEq, Prod.mk.injEq] at h
        rw [← h.2]; exact hinv1
      | intr f w value e =>
        simp only [Option.some.injEq, Prod.mk.injEq] at h
        rw [← h.2]; exact hinv1
      | failed m =>
        simp only [Option.some.injEq, Prod.mk.injEq] at h
        rw [← h.2]; exact hinv1
      | promised sk r' c =>
        rcases r' with e | v
        · simp only [Option.some.injEq, Prod.mk.injEq] at h
          rw [← h.2]; exact hinv1
        · dsimp only at h
          refine ih _ r st' h ?_
          refine ⟨?_, ?_, hinv1.2.2⟩
          · intro ec hec
            rcases List.mem_append.mp hec with h1 | h1
            · exact hinv1.1 ec h1
            · rcases List.mem_singleton.mp h1 with rfl
              simp [mkTempEvent]
          · intro ec hec
            rcases List.mem_append.mp hec with h1 | h1
            · exact hinv1.2.1 ec h1
            · rcases List.mem_singleton.mp h1 with rfl
              simp [mkTempEvent]

/-- `executeNode` only records events and capture invocations addressed to
the executed node. -/
lemma executeNode_heads {n : String} {node : Node}
    {tr : String → Option ResultV} {P I : List StepEvent} {nv : Int}
    {snap : Option (Nat × Val)} {sf : Nat} {r : ResultV} {st : ExecSt}
    (hP : ∀ ev ∈ P, ev.k.head? = some n)
    (hI : ∀ ev ∈ I, ev.k.head? = some n)
    (h : executeNode node tr P I nv [n] snap sf = some (r, st)) :
    HeadsInv n st := by
  unfold executeNode at h
  by_cases hne : node.dependencies.filter (fun d => depUnsatisfied (tr d)) = []
  · simp only [hne, ne_eq, not_true_eq_false, if_false] at h
    exact promiseLoop_heads hP hI MAX_PROMISES ExecSt.init r st h (headsInv_init n)
  · simp only [hne, ne_eq, not_false_eq_true, if_true, Option.some.injEq,
      Prod.mk.injEq] at h
    rw [← h.2]
    exact headsInv_init n

/-- A node whose compute issues no effect (`.ret v`) records nothing:
no consumed events, no temp events, no capture invocations. -/
lemma executeNode_ret_state {ds : List String} {v : Val}
    {tr : String → Option ResultV} {P I : List StepEvent} {nv : Int}
    {ck : List String} {snap : Option (Nat × Val)} {sf : Nat} {r : ResultV}
    {st : ExecSt}
    (h : executeNode { dependencies := ds, compute := .ret v, saga := none }
      tr P I nv ck snap sf = some (r, st)) :
    st = ExecSt.init := by
  unfold executeNode at h
  by_cases hne : ds.filter (fun d => depUnsatisfied (tr d)) = []
  · simp only [hne, ne_eq, not_true_eq_false, if_false] at h
    rw [show MAX_PROMISES = 999 + 1 from rfl] at h
    unfold promiseLoop at h
    unfold iterateOnce at h
    dsimp only at h
    simp only [runBody, Option.some.injEq, Prod.mk.injEq] at h
    exact h.2.symm
  · simp only [hne, ne_eq, not_false_eq_true, if_true, Option.some.injEq,
      Prod.mk.injEq] at h
    exact h.2.symm

/-- Along a schedule, consumed events addressed to a node whose body
issues no effect do not appear: each execution of that key records
nothing, and every other key's records carry its own head. -/
lemma executeNodes_pure_node_consumed {wf : Wf} {s : WfState}
    {incoming : List StepEvent} {nv : Int} {sf : Nat} {n : String}
    {ds : List String} {v : Val}
    (hwf : ∀ k ev, ev ∈ s.events k → ev.k.head? = some k)
    (hfind : findNode wf n = some { dependencies := ds, compute := .ret v, saga := none }) :
    ∀ {order : List String} {tr : String → Option ResultV} {acc : GlobalAcc}
      {tr' : String → Option ResultV} {acc' : GlobalAcc},
      executeNodes wf s incoming nv sf order tr acc = some (tr', acc') →
      acc'.consumed.filter (fun e => e.k.head? = some n) =
        acc.consumed.filter (fun e => e.k.head? = some n) := by
  intro order
  induction order with
  | nil =>
    intro tr acc tr' acc' h
    unfold executeNodes at h
    simp only [Option.some.injEq, Prod.mk.injEq] at h
    rw [← h.2]
  | cons m rest ih =>
    intro tr acc tr' acc' h
    unfold executeNodes at h
    rcases hfm : findNode wf m with _ | nodeM
    · rw [hfm] at h
      dsimp only at h
      exact ih h
    · rw [hfm] at h
      dsimp only at h
      rcases hex : executeNode nodeM tr (s.events m)
          (incoming.filter (fun e => e.k.head? = some m)) nv [m]
          (s.snapshots m) sf with _ | ⟨r0, st0⟩
      · rw [hex] at h
        cases h
      · rw [hex] at h
        dsimp only at h
        have hstep := ih h
        rw [hstep]
        dsimp only
        rw [List.filter_append]
        by_cases hmn : m = n
        · subst hmn
          have hnode : nodeM = { dependencies := ds, compute := .ret v, saga := none } := by
            rw [hfm] at hfind
            exact Option.some_inj.mp hfind
          subst hnode
          rw [executeNode_ret_state hex]
          simp [ExecSt.init]
        · have hheads := executeNode_heads
            (fun ev hev => hwf m ev hev)
            (fun ev hev => by
              have := List.mem_filter.mp hev
              exact of_decide_eq_true this.2) hex
          have : st0.consumed.filter (fun e => e.k.head? = some n) = [] := by
            rw [List.filter_eq_nil_iff]
            intro ec hec
            have := hheads.1 ec hec
            simp only [this, decide_eq_true_eq, Option.some.injEq]
            exact fun hc => hmn hc
          rw [this]
          simp

/-- Along a schedule, every consumed event is addressed to some key the
schedule actually looked up. -/
lemma executeNodes_consumed_heads {wf : Wf} {s : WfState}
    {incoming : List StepEvent} {nv : Int} {sf : Nat}
    (hwf : ∀ k ev, ev ∈ s.events k → ev.k.head? = some k) :
    ∀ {order : List String} {tr : String → Option ResultV} {acc : GlobalAcc}
      {tr' : String → Option ResultV} {acc' : GlobalAcc},
      executeNodes wf s incoming nv sf order tr acc = some (tr', acc') →
      ∀ ec ∈ acc'.consumed, ec ∈ acc.consumed ∨
        ∃ m, (findNode wf m).isSome ∧ ec.k.head? = some m := by
  intro order
  induction order with
  | nil =>
    intro tr acc tr' acc' h ec hec
    unfold executeNodes at h
    simp only [Option.some.injEq, Prod.mk.injEq] at h
    rw [← h.2] at hec
    exact Or.inl hec
  | cons m rest ih =>
    intro tr acc tr' acc' h ec hec
    unfold executeNodes at h
    rcases hfm : findNode wf m with _ | nodeM
    · rw [hfm] at h
      dsimp only at h
      exact ih h ec hec
    · rw [hfm] at h
      dsimp only at h
      rcases hex : executeNode nodeM tr (s.events m)
          (incoming.filter (fun e => e.k.head? = some m)) nv [m]
          (s.snapshots m) sf with _ | ⟨r0, st0⟩
      · rw [hex] at h
        cases h
      · rw [hex] at h
        dsimp only at h
        rcases ih h ec hec with hmem | hex2
        · dsimp only at hmem
          rcases List.mem_append.mp hmem with h1 | h1
          · exact Or.inl h1
          · have hheads := executeNode_heads
              (fun ev hev => hwf m ev hev)
              (fun ev hev => by
                have := List.mem_filter.mp hev
                exact of_decide_eq_true this.2) hex
            exact Or.inr ⟨m, by rw [hfm]; rfl, hheads.1 ec h1⟩
        · exact Or.inr hex2

/-- Every consumed event reported by a successful `dryRun` is addressed
to a key that resolves to a node of the workflow. -/
lemma dryRun_newEvents_heads {wf : Wf} {s : WfState} {incoming : List StepEvent}
    {opts : RunOpts} {timer : Option Nat} {wc : Int} {sf : Nat}
    {dr : DryOut} {s1 : WfState}
    (hwf : ∀ k ev, ev ∈ s.events k → ev.k.head? = some k)
    (h : dryRun wf s incoming opts timer wc sf = .out (dr, s1)) :
    ∀ ec ∈ dr.newEvents, ∃ m, (findNode wf m).isSome ∧ ec.k.head? = some m := by
  unfold dryRun at h
  by_cases hr : s.isRunning
  · simp [hr] at h
  · simp only [hr, Bool.false_eq_true, if_false] at h
    split at h
    · cases h
    · rename_i tr acc heq
      simp only [RunRes.out.injEq, Prod.mk.injEq] at h
      intro ec hec
      have hne : dr.newEvents = acc.consumed := by rw [← h.1]
      rcases executeNodes_consumed_heads hwf heq ec (hne ▸ hec) with hmem | hm
      · cases hmem
      · exact hm

/-- A node whose compute issues no effect consumes none of its incoming
events: nothing addressed to it appears in `newEvents`. -/
lemma dryRun_pure_node_newEvents {wf : Wf} {s : WfState}
    {incoming : List StepEvent} {opts : RunOpts} {timer : Option Nat}
    {wc : Int} {sf : Nat} {dr : DryOut} {s1 : WfState} {n : String}
    {ds : List String} {v : Val}
    (hwf : ∀ k ev, ev ∈ s.events k → ev.k.head? = some k)
    (hfind : findNode wf n = some { dependencies := ds, compute := .ret v, saga := none })
    (h : dryRun wf s incoming opts timer wc sf = .out (dr, s1)) :
    dr.newEvents.filter (fun e => e.k.head? = some n) = [] := by
  unfold dryRun at h
  by_cases hr : s.isRunning
  · simp [hr] at h
  · simp only [hr, Bool.false_eq_true, if_false] at h
    split at h
    · cases h
    · rename_i tr acc heq
      simp only [RunRes.out.injEq, Prod.mk.injEq] at h
      have hne : dr.newEvents = acc.consumed := by rw [← h.1]
      rw [hne]
      exact executeNodes_pure_node_consumed hwf hfind heq

/-! ## Claim C8 — event filtering -/

/-- Result-map projection of a `run` outcome (empty map on a throw). -/
def runResults (o : RunRes ((String → Option ResultV) × DryOut)) :
    String → Option ResultV :=
  match o with
  | .out (res, _) => res
  | _ => fun _ => none

/-- Consumed-events projection of a `run` outcome. -/
def runNewEvents (o : RunRes ((String → Option ResultV) × DryOut)) :
    List StepEventC :=
  match o with
  | .out (_, dr) => dr.newEvents
  | _ => []

/-- A node expecting step `a`, used to refute C8's "unreached step paths
are ignored". -/
def c8node : Node :=
  { dependencies := [],
    compute := .stepc { key := "a" } (fun _ => .ret (.num 1)),
    saga := none }

/-- **C8, counterexample.** An incoming event addressed to the existing
node `n` at step path `["n","x"]` — a path the body (which only ever
issues step `a`) never reaches — is *not* ignored: the dispatcher pushes
the cursor event onto `newConsumedEvents` before comparing paths, so the
event appears in `newEvents`, the node errs with the replay-divergence
message, and the commit appends the event to the persistent log. -/
theorem claim8_counterexample :
    runNewEvents (run [("n", c8node)] spawnState
        [{ k := ["n", "x"], v := .num 2, ts := 0 }] {} none 0 5).1 =
      [{ k := ["n", "x"], v := .num 2, ts := 0, i := none, c := { key := "a" } }]
    ∧ (run [("n", c8node)] spawnState
        [{ k := ["n", "x"], v := .num 2, ts := 0 }] {} none 0 5).2.events "n" =
      [{ k := ["n", "x"], v := .num 2, ts := 0 }]
    ∧ runResults (run [("n", c8node)] spawnState
        [{ k := ["n", "x"], v := .num 2, ts := 0 }] {} none 0 5).1 "n" =
      some (.err "Expected event n,a but got n,x instead") := by
  refine ⟨by rfl, by rfl, by rfl⟩

/-- **C8, amended.** Incoming events whose path's first element does not
resolve to a node of the workflow are ignored: every consumed event in
`newEvents` is addressed to a resolvable node key, and the commit never
touches `events[u]` for an unresolvable `u`. Events addressed to an
existing node beyond the positions its body consumes are likewise ignored
— in particular a node whose body issues no step consumes nothing, so
nothing addressed to it is consumed or committed. However an event lying
*at* the replay cursor whose path differs from the body's current step key
is consumed (pushed onto `newConsumedEvents` before the path comparison),
appears in `newEvents` and is committed, while the node errs. -/
theorem claim8_event_filtering_amended (wf : Wf) (s : WfState)
    (incoming : List StepEvent) (opts : RunOpts) (timer : Option Nat)
    (wc : Int) (sf : Nat) (res : String → Option ResultV) (dr : DryOut)
    (s' : WfState)
    (hwf : ∀ k ev, ev ∈ s.events k → ev.k.head? = some k)
    (hrun : run wf s incoming opts timer wc sf = (.out (res, dr), s')) :
    (∀ ec ∈ dr.newEvents, ∃ m, (findNode wf m).isSome ∧ ec.k.head? = some m)
    ∧ (∀ u, findNode wf u = none → s'.events u = s.events u)
    ∧ (∀ n ds v, findNode wf n =
          some { dependencies := ds, compute := .ret v, saga := none } →
        dr.newEvents.filter (fun e => e.k.head? = some n) = []
        ∧ s'.events n = s.events n)
    ∧ (∀ (env : BodyEnv) (st : ExecSt) (ctx : StepContext) (kc : Val → Prog Val)
        (ev : StepEvent),
        env.allEvents[st.idx]? = some ev →
        ev.k ≠ env.currentKeys ++ [ctx.key] →
        (runBody env (.stepc ctx kc) st).2.consumed =
          st.consumed ++ [{ toStepEvent := ev, c := ctx }]) := by
  obtain ⟨hres, htime, hdr, hs'⟩ := run_out_inv hrun
  have hevents : ∀ k, s'.events k =
      s.events k ++ (dr.newEvents.filter (fun e => e.k.head? = some k)).map (·.toStepEvent) := by
    intro k
    rw [hs']
    exact commitEvents_filter dr.newEvents s.events k
  refine ⟨dryRun_newEvents_heads hwf hdr, ?_, ?_, ?_⟩
  · intro u hu
    rw [hevents u]
    have hfil0 : dr.newEvents.filter (fun e => e.k.head? = some u) = [] := by
      rw [List.filter_eq_nil_iff]
      intro ec hec
      obtain ⟨m, hm, hhead⟩ := dryRun_newEvents_heads hwf hdr ec hec
      simp only [decide_eq_true_eq]
      intro hc
      rw [hc] at hhead
      have hmu : m = u := Option.some_inj.mp hhead.symm
      rw [hmu] at hm
      rw [hu] at hm
      cases hm
    rw [hfil0]
    simp
  · intro n ds v hfind
    have hfil := dryRun_pure_node_newEvents hwf hfind hdr
    refine ⟨hfil, ?_⟩
    rw [hevents n, hfil]
    simp
  · intro env st ctx kc ev hev hk
    rw [runBody_stepc, stepCall_mismatch hev hk]

/-- Witness for the amended C8: in a workflow whose only node `p` computes
without effects, an incoming event addressed to the unknown node `ghost`
and one addressed to `p` itself are both ignored — `newEvents` is empty
and the log is untouched. -/
theorem claim8_witness :
    (run [("p", { dependencies := [], compute := .ret (.num 7), saga := none })]
        spawnState
        [{ k := ["ghost", "a"], v := .num 1, ts := 0 },
         { k := ["p", "never"], v := .num 2, ts := 0 }] {} none 0 5).2.events "ghost" =
      spawnState.events "ghost"
    ∧ (run [("p", { dependencies := [], compute := .ret (.num 7), saga := none })]
        spawnState
        [{ k := ["ghost", "a"], v := .num 1, ts := 0 },
         { k := ["p", "never"], v := .num 2, ts := 0 }] {} none 0 5).2.events "p" =
      spawnState.events "p" := by
  have h := claim8_event_filtering_amended
    [("p", { dependencies := [], compute := .ret (.num 7), saga := none })]
    spawnState
    [{ k := ["ghost", "a"], v := .num 1, ts := 0 },
     { k := ["p", "never"], v := .num 2, ts := 0 }] {} none 0 5 _ _ _
    (fun k ev hev => absurd hev (List.not_mem_nil ev)) rfl
  exact ⟨h.2.1 "ghost" rfl, (h.2.2.1 "p" [] (.num 7) rfl).2⟩

/-! ## topologicalSort visits each node at most once -/

/-- DFS invariant: the post-order result is duplicate-free and contained
in the visited set. -/
def TopoInv (vis res : List String) : Prop :=
  res.Nodup ∧ ∀ x ∈ res, x ∈ vis

/-- One DFS step (or a fold of steps): preserves the invariant, grows the
visited set, and only appends nodes that were unvisited at entry. -/
def TopoStep (vis res vis' res' : List String) : Prop :=
  TopoInv vis res →
    TopoInv vis' res' ∧ (∀ x ∈ vis, x ∈ vis') ∧ (∀ x ∈ res', x ∈ res ∨ x ∉ vis)

lemma topoStep_refl (vis res : List String) : TopoStep vis res vis res :=
  fun h => ⟨h, fun _ hx => hx, fun _ hx => Or.inl hx⟩

lemma topoStep_trans {v0 r0 v1 r1 v2 r2 : List String}
    (h01 : TopoStep v0 r0 v1 r1) (h12 : TopoStep v1 r1 v2 r2) :
    TopoStep v0 r0 v2 r2 := by
  intro hinv
  obtain ⟨hinv1, hvis1, hres1⟩ := h01 hinv
  obtain ⟨hinv2, hvis2, hres2⟩ := h12 hinv1
  refine ⟨hinv2, fun x hx => hvis2 x (hvis1 x hx), ?_⟩
  intro x hx
  rcases hres2 x hx with h1 | h1
  · exact hres1 x h1
  · exact Or.inr (fun hc => h1 (hvis1 x hc))

/-- `topoVisit` is a `TopoStep`, for any fuel. -/
lemma topoVisit_step (wf : Wf) :
    ∀ (fuel : Nat) (n : String) (vis res : List String),
      TopoStep vis res (topoVisit wf fuel n (vis, res)).1 (topoVisit wf fuel n (vis, res)).2 := by
  intro fuel
  induction fuel with
  | zero =>
    intro n vis res
    exact topoStep_refl vis res
  | succ f ih =>
    intro n vis res
    unfold topoVisit
    by_cases hv : n ∈ vis
    · rw [if_pos hv]
      exact topoStep_refl vis res
    · rw [if_neg hv]
      dsimp only
      -- the fold over dependencies is a TopoStep from (n :: vis, res)
      have hfold : ∀ (ds : List String) (vis0 res0 : List String),
          TopoStep vis0 res0
            (ds.foldl (fun s d => topoVisit wf f d s) (vis0, res0)).1
            (ds.foldl (fun s d => topoVisit wf f d s) (vis0, res0)).2 := by
        intro ds
        induction ds with
        | nil => intro vis0 res0; exact topoStep_refl vis0 res0
        | cons d rest ihd =>
          intro vis0 res0
          have h1 := ih d vis0 res0
          have h2 := ihd (topoVisit wf f d (vis0, res0)).1 (topoVisit wf f d (vis0, res0)).2
          simp only [List.foldl_cons]
          exact topoStep_trans h1 h2
      intro hinv
      set ds := (match findNode wf n with
        | some nd => nd.dependencies
        | none => []) with hds
      have hstep := hfold ds (n :: vis) res
      have hinv0 : TopoInv (n :: vis) res :=
        ⟨hinv.1, fun x hx => List.mem_cons_of_mem n (hinv.2 x hx)⟩
      obtain ⟨⟨hnodup1, hsub1⟩, hvis1, hres1⟩ := hstep hinv0
      set s1 := ds.foldl (fun s d => topoVisit wf f d s) (n :: vis, res) with hs1
      refine ⟨⟨?_, ?_⟩, ?_, ?_⟩
      · -- s1.2 ++ [n] is nodup: n ∉ s1.2
        rw [List.nodup_append]
        refine ⟨hnodup1, List.nodup_singleton n, ?_⟩
        intro x hx hx1
        rcases List.mem_singleton.mp hx1 with rfl
        rcases hres1 x hx with h1 | h1
        · exact hv (hinv.2 x h1)
        · exact h1 (List.mem_cons_self x vis)
      · intro x hx
        rcases List.mem_append.mp hx with h1 | h1
        · exact hsub1 x h1
        · rcases List.mem_singleton.mp h1 with rfl
          exact hvis1 x (List.mem_cons_self x vis)
      · intro x hx
        exact hvis1 x (List.mem_cons_of_mem n hx)
      · intro x hx
        rcases List.mem_append.mp hx with h1 | h1
        · rcases hres1 x h1 with h2 | h2
          · exact Or.inl h2
          · exact Or.inr (fun hc => h2 (List.mem_cons_of_mem n hc))
        · rcases List.mem_singleton.mp h1 with rfl
          exact Or.inr hv

/-- The schedule visits every node at most once. -/
lemma topologicalSort_nodup (wf : Wf) : (topologicalSort wf).Nodup := by
  unfold topologicalSort
  have hfold : ∀ (ps : List (String × Node)) (vis res : List String),
      TopoStep vis res
        (ps.foldl (fun s p => topoVisit wf (wf.length + 1) p.1 s) (vis, res)).1
        (ps.foldl (fun s p => topoVisit wf (wf.length + 1) p.1 s) (vis, res)).2 := by
    intro ps
    induction ps with
    | nil => intro vis res; exact topoStep_refl vis res
    | cons p rest ihp =>
      intro vis res
      have h1 := topoVisit_step wf (wf.length + 1) p.1 vis res
      have h2 := ihp (topoVisit wf (wf.length + 1) p.1 (vis, res)).1
        (topoVisit wf (wf.length + 1) p.1 (vis, res)).2
      simp only [List.foldl_cons]
      exact topoStep_trans h1 h2
  have h := hfold wf [] []
  have hinv : TopoInv [] [] := ⟨List.nodup_nil, fun x hx => absurd hx (List.not_mem_nil x)⟩
  exact ((h hinv).1).1

/-- The run-global accumulator only grows. -/
lemma executeNodes_acc_prefix {wf : Wf} {s : WfState}
    {incoming : List StepEvent} {nv : Int} {sf : Nat} :
    ∀ {order : List String} {tr : String → Option ResultV} {acc : GlobalAcc}
      {tr' : String → Option ResultV} {acc' : GlobalAcc},
      executeNodes wf s incoming nv sf order tr acc = some (tr', acc') →
      ∃ Dc Dp, acc'.consumed = acc.consumed ++ Dc ∧ acc'.caps = acc.caps ++ Dp := by
  intro order
  induction order with
  | nil =>
    intro tr acc tr' acc' h
    unfold executeNodes at h
    simp only [Option.some.injEq, Prod.mk.injEq] at h
    exact ⟨[], [], by rw [← h.2]; simp, by rw [← h.2]; simp⟩
  | cons m rest ih =>
    intro tr acc tr' acc' h
    unfold executeNodes at h
    rcases hfm : findNode wf m with _ | nodeM
    · rw [hfm] at h
      dsimp only at h
      exact ih h
    · rw [hfm] at h
      dsimp only at h
      rcases hex : executeNode nodeM tr (s.events m)
          (incoming.filter (fun e => e.k.head? = some m)) nv [m]
          (s.snapshots m) sf with _ | ⟨r0, st0⟩
      · rw [hex] at h
        cases h
      · rw [hex] at h
        dsimp only at h
        obtain ⟨Dc, Dp, hc, hp⟩ := ih h
        exact ⟨st0.consumed ++ Dc, st0.caps ++ Dp,
          by rw [hc]; simp, by rw [hp]; simp⟩

/-- A schedule that never executes key `n` adds no capture invocation at
a path headed by `n`. -/
lemma executeNodes_caps_count_skip {wf : Wf} {s : WfState}
    {incoming : List StepEvent} {nv : Int} {sf : Nat} {p : List String}
    {n : String} (hp : p.head? = some n)
    (hwf : ∀ k ev, ev ∈ s.events k → ev.k.head? = some k) :
    ∀ {order : List String}, n ∉ order →
      ∀ {tr : String → Option ResultV} {acc : GlobalAcc}
        {tr' : String → Option ResultV} {acc' : GlobalAcc},
        executeNodes wf s incoming nv sf order tr acc = some (tr', acc') →
        acc'.caps.count p = acc.caps.count p := by
  intro order
  induction order with
  | nil =>
    intro _ tr acc tr' acc' h
    unfold executeNodes at h
    simp only [Option.some.injEq, Prod.mk.injEq] at h
    rw [← h.2]
  | cons m rest ih =>
    intro hn tr acc tr' acc' h
    have hmn : m ≠ n := fun hc => hn (hc ▸ List.mem_cons_self m rest)
    have hnrest : n ∉ rest := fun hc => hn (List.mem_cons_of_mem m hc)
    unfold executeNodes at h
    rcases hfm : findNode wf m with _ | nodeM
    · rw [hfm] at h
      dsimp only at h
      exact ih hnrest h
    · rw [hfm] at h
      dsimp only at h
      rcases hex : executeNode nodeM tr (s.events m)
          (incoming.filter (fun e => e.k.head? = some m)) nv [m]
          (s.snapshots m) sf with _ | ⟨r0, st0⟩
      · rw [hex] at h
        cases h
      · rw [hex] at h
        dsimp only at h
        rw [ih hnrest h]
        dsimp only
        rw [List.count_append]
        have hz : st0.caps.count p = 0 := by
          rw [List.count_eq_zero]
          intro hc
          have hheads := executeNode_heads
            (fun ev hev => hwf m ev hev)
            (fun ev hev => by
              have := List.mem_filter.mp hev
              exact of_decide_eq_true this.2) hex
          have := hheads.2.2 p hc
          rw [hp] at this
          exact hmn (Option.some_inj.mp this).symm
        rw [hz]
        simp

/-- Capture invocations at a path headed by `n` along a duplicate-free
schedule come from at most one execution: either key `n` was never
executed (count unchanged) or there is a single `executeNode` call on the
node `n` resolves to, against `n`'s persisted events, incoming slice and
snapshot, accounting for the whole difference — and whose consumed events
all end up in the final accumulator. -/
lemma executeNodes_caps_at_n {wf : Wf} {s : WfState}
    {incoming : List StepEvent} {nv : Int} {sf : Nat} {p : List String}
    {n : String} (hp : p.head? = some n)
    (hwf : ∀ k ev, ev ∈ s.events k → ev.k.head? = some k) :
    ∀ {order : List String}, order.Nodup →
      ∀ {tr : String → Option ResultV} {acc : GlobalAcc}
        {tr' : String → Option ResultV} {acc' : GlobalAcc},
        executeNodes wf s incoming nv sf order tr acc = some (tr', acc') →
        acc'.caps.count p = acc.caps.count p ∨
        ∃ node trPrev r st, findNode wf n = some node ∧
          executeNode node trPrev (s.events n)
            (incoming.filter (fun e => e.k.head? = some n)) nv [n]
            (s.snapshots n) sf = some (r, st) ∧
          acc'.caps.count p = acc.caps.count p + st.caps.count p ∧
          (∀ ec ∈ st.consumed, ec ∈ acc'.consumed) := by
  intro order
  induction order with
  | nil =>
    intro _ tr acc tr' acc' h
    unfold executeNodes at h
    simp only [Option.some.injEq, Prod.mk.injEq] at h
    exact Or.inl (by rw [← h.2])
  | cons m rest ih =>
    intro hnodup tr acc tr' acc' h
    have hnodup' := hnodup
    rw [List.nodup_cons] at hnodup'
    unfold executeNodes at h
    rcases hfm : findNode wf m with _ | nodeM
    · rw [hfm] at h
      dsimp only at h
      exact ih hnodup'.2 h
    · rw [hfm] at h
      dsimp only at h
      rcases hex : executeNode nodeM tr (s.events m)
          (incoming.filter (fun e => e.k.head? = some m)) nv [m]
          (s.snapshots m) sf with _ | ⟨r0, st0⟩
      · rw [hex] at h
        cases h
      · rw [hex] at h
        dsimp only at h
        by_cases hmn : m = n
        · subst hmn
          right
          obtain ⟨Dc, Dp, hDc, hDp⟩ := executeNodes_acc_prefix h
          have hskip := executeNodes_caps_count_skip hp hwf hnodup'.1 h
          refine ⟨nodeM, tr, r0, st0, hfm, hex, ?_, ?_⟩
          · rw [hskip]
            dsimp only
            rw [List.count_append]
          · intro ec hec
            rw [hDc]
            dsimp only
            exact List.mem_append_left Dc (List.mem_append_right acc.consumed hec)
        · rcases ih hnodup'.2 h with hcount | ⟨node, trPrev, r, st, hfind, hexn, hcount, hsub⟩
          · left
            rw [hcount]
            dsimp only
            rw [List.count_append]
            have hz : st0.caps.count p = 0 := by
              rw [List.count_eq_zero]
              intro hc
              have hheads := executeNode_heads
                (fun ev hev => hwf m ev hev)
                (fun ev hev => by
                  have := List.mem_filter.mp hev
                  exact of_decide_eq_true this.2) hex
              have := hheads.2.2 p hc
              rw [hp] at this
              exact hmn (Option.some_inj.mp this).symm
            rw [hz]
            simp
          · right
            refine ⟨node, trPrev, r, st, hfind, hexn, ?_, hsub⟩
            rw [hcount]
            dsimp only
            rw [List.count_append]
            have hz : st0.caps.count p = 0 := by
              rw [List.count_eq_zero]
              intro hc
              have hheads := executeNode_heads
                (fun ev hev => hwf m ev hev)
                (fun ev hev => by
                  have := List.mem_filter.mp hev
                  exact of_decide_eq_true this.2) hex
              have := hheads.2.2 p hc
              rw [hp] at this
              exact hmn (Option.some_inj.mp this).symm
            rw [hz]
            simp

/-! ## Claim C4 — idempotent capture -/

/-- A capture whose effect succeeds: synchronous, or an awaitable that
resolves. -/
def CapOk : CapFn → Prop
  | .sync _ => True
  | .async (.ok _) => True
  | .async (.error _) => False

/-- A dependency-free node whose whole body is one `capture`. -/
def singleCapture (ctx : StepContext) (fn : CapFn) : Node :=
  { dependencies := [], compute := .capture ctx fn (fun v => .ret v), saga := none }

/-- Unfolding equation for one promise-loop iteration of a saga-free node. -/
lemma iterateOnce_eq_noSaga (node : Node) (hsaga : node.saga = none)
    (P I : List StepEvent) (tr : String → Option ResultV) (nv : Int)
    (ck : List String) (snap : Option (Nat × Val)) (sf : Nat) (st0 : ExecSt) :
    iterateOnce node P I tr nv ck snap sf st0 =
      match runBody { currentKeys := ck, allEvents := P ++ I ++ st0.tempNew.map (·.toStepEvent), deps := tr, nowVal := nv } node.compute st0 with
      | (.ok v, st') => some (.done v, st')
      | (.inputIntr f w, st') => some (.intr f w .undef 0, st')
      | (.promiseIntr sk r c, st') => some (.promised sk r c, st')
      | (.errOut m, st') => some (.failed m, st') := by
  unfold iterateOnce
  rw [hsaga]


/-- Replay hit with matching recorded input keys: no warning. -/
lemma stepCall_replay_match_exact {env : BodyEnv} {st : ExecSt} {ctx : StepContext}
    {ev : StepEvent} (hev : env.allEvents[st.idx]? = some ev)
    (hk : ev.k = env.currentKeys ++ [ctx.key]) (hi : ev.i = ctx.inputs) :
    stepCall env st ctx = .val ev.v
      { st with idx := st.idx + 1,
                consumed := st.consumed ++ [{ toStepEvent := ev, c := ctx }] } := by
  have hlt : st.idx < env.allEvents.length := (List.getElem?_eq_some.mp hev).1
  have hget : env.allEvents.get ⟨st.idx, hlt⟩ = ev := by
    rw [List.get_eq_getElem]
    exact (List.getElem?_eq_some.mp hev).2
  unfold stepCall
  rw [dif_pos hlt, hget, if_pos hk, if_pos hi]

/-- Replay hit with differing recorded input keys: a `context_updated`
warning is pushed. -/
lemma stepCall_replay_match_warn {env : BodyEnv} {st : ExecSt} {ctx : StepContext}
    {ev : StepEvent} (hev : env.allEvents[st.idx]? = some ev)
    (hk : ev.k = env.currentKeys ++ [ctx.key]) (hi : ¬ ev.i = ctx.inputs) :
    stepCall env st ctx = .val ev.v
      { st with idx := st.idx + 1,
                consumed := st.consumed ++ [{ toStepEvent := ev, c := ctx }],
                warns := st.warns ++ [{ step := env.currentKeys ++ [ctx.key], old := ev.i, new := ctx.inputs }] } := by
  have hlt : st.idx < env.allEvents.length := (List.getElem?_eq_some.mp hev).1
  have hget : env.allEvents.get ⟨st.idx, hlt⟩ = ev := by
    rw [List.get_eq_getElem]
    exact (List.getElem?_eq_some.mp hev).2
  unfold stepCall
  rw [dif_pos hlt, hget, if_pos hk, if_neg hi]

/-- Second iteration of the promise loop for a fresh single-capture node
with a resolving awaitable: the synthesized event (the only element of
`tempNewEvents`) is replayed by the dispatcher, so the body completes
without invoking `fn` again. -/
lemma singleCapture_replay_iter (ctx : StepContext) (v : Val)
    (tr : String → Option ResultV) (nv : Int) (n : String)
    (snap : Option (Nat × Val)) (sf : Nat) :
    ∀ st0 : ExecSt, st0.idx = 0 →
      st0.tempNew = [mkTempEvent [n] ("capture:" ++ ctx.key) v nv ctx] →
      iterateOnce (singleCapture ctx (.async (.ok v))) [] [] tr nv [n] snap sf st0 =
        some (.done v,
          if (none : Option (List (List String))) = ctx.inputs then { st0 with idx := st0.idx + 1, consumed := st0.consumed ++ [{ toStepEvent := (mkTempEvent [n] ("capture:" ++ ctx.key) v nv ctx).toStepEvent, c := { ctx with key := "capture:" ++ ctx.key } }] } else { st0 with idx := st0.idx + 1, consumed := st0.consumed ++ [{ toStepEvent := (mkTempEvent [n] ("capture:" ++ ctx.key) v nv ctx).toStepEvent, c := { ctx with key := "capture:" ++ ctx.key } }], warns := st0.warns ++ [{ step := [n] ++ ["capture:" ++ ctx.key], old := none, new := ctx.inputs }] }) := by
  intro st0 hidx htn
  rw [iterateOnce_eq_noSaga _ rfl]
  have hall : ([] : List StepEvent) ++ [] ++ st0.tempNew.map (·.toStepEvent) =
      [(mkTempEvent [n] ("capture:" ++ ctx.key) v nv ctx).toStepEvent] := by
    rw [htn]
    rfl
  rw [hall]
  rw [show (singleCapture ctx (.async (.ok v))).compute =
    Prog.capture ctx (.async (.ok v)) (fun x => Prog.ret x) from rfl]
  rw [runBody_capture]
  have hev : (({ currentKeys := [n], allEvents := [(mkTempEvent [n] ("capture:" ++ ctx.key) v nv ctx).toStepEvent], deps := tr, nowVal := nv } : BodyEnv).allEvents)[st0.idx]? = some (mkTempEvent [n] ("capture:" ++ ctx.key) v nv ctx).toStepEvent := by
    rw [hidx]
    rfl
  by_cases hcin : (none : Option (List (List String))) = ctx.inputs
  · rw [@stepCall_replay_match_exact { currentKeys := [n], allEvents := [(mkTempEvent [n] ("capture:" ++ ctx.key) v nv ctx).toStepEvent], deps := tr, nowVal := nv } st0 { ctx with key := "capture:" ++ ctx.key } ((mkTempEvent [n] ("capture:" ++ ctx.key) v nv ctx).toStepEvent) hev rfl hcin, if_pos hcin]
    rfl
  · rw [@stepCall_replay_match_warn { currentKeys := [n], allEvents := [(mkTempEvent [n] ("capture:" ++ ctx.key) v nv ctx).toStepEvent], deps := tr, nowVal := nv } st0 { ctx with key := "capture:" ++ ctx.key } ((mkTempEvent [n] ("capture:" ++ ctx.key) v nv ctx).toStepEvent) hev rfl hcin, if_neg hcin]
    rfl

/-- First iteration of the promise loop for a fresh single-capture node
with a resolving awaitable: the dispatcher raises `InputInterrupt`, so the
capture invokes `fn` (recorded in the ghost `caps` log) and raises
`PromiseInterrupt`. -/
lemma singleCapture_async_iter1 (ctx : StepContext) (v : Val)
    (tr : String → Option ResultV) (nv : Int) (n : String)
    (snap : Option (Nat × Val)) (sf : Nat) :
    iterateOnce (singleCapture ctx (.async (.ok v))) [] [] tr nv [n] snap sf ExecSt.init =
      some (.promised ("capture:" ++ ctx.key) (.ok v) ctx,
        { ExecSt.init with caps := [[n, "capture:" ++ ctx.key]] }) := by
  rw [iterateOnce_eq_noSaga _ rfl]
  rw [show ([] : List StepEvent) ++ [] ++ ExecSt.init.tempNew.map (·.toStepEvent) = [] from rfl]
  rw [show (singleCapture ctx (.async (.ok v))).compute =
    Prog.capture ctx (.async (.ok v)) (fun x => Prog.ret x) from rfl]
  rw [runBody_capture]
  rw [@stepCall_frontier { currentKeys := [n], allEvents := [], deps := tr, nowVal := nv } ExecSt.init { ctx with key := "capture:" ++ ctx.key } (Nat.le_refl 0)]
  rfl

/-- A fresh single-capture node with a resolving awaitable: the promise
loop interrupts, resolves, appends the synthesized event and replays it;
`fn` is invoked exactly once and the synthesized event is consumed. -/
lemma executeNode_async_capture (ctx : StepContext) (v : Val)
    (tr : String → Option ResultV) (nv : Int) (n : String)
    (snap : Option (Nat × Val)) (sf : Nat) :
    ∃ st : ExecSt,
      executeNode (singleCapture ctx (.async (.ok v))) tr [] [] nv [n] snap sf =
        some (.done v, st)
      ∧ st.caps = [[n, "capture:" ++ ctx.key]]
      ∧ st.consumed ≠ [] := by
  refine ⟨if (none : Option (List (List String))) = ctx.inputs then { idx := 1, consumed := [mkTempEvent [n] ("capture:" ++ ctx.key) v nv ctx, { toStepEvent := (mkTempEvent [n] ("capture:" ++ ctx.key) v nv ctx).toStepEvent, c := { ctx with key := "capture:" ++ ctx.key } }], tempNew := [mkTempEvent [n] ("capture:" ++ ctx.key) v nv ctx], warns := [], caps := [[n, "capture:" ++ ctx.key]] } else { idx := 1, consumed := [mkTempEvent [n] ("capture:" ++ ctx.key) v nv ctx, { toStepEvent := (mkTempEvent [n] ("capture:" ++ ctx.key) v nv ctx).toStepEvent, c := { ctx with key := "capture:" ++ ctx.key } }], tempNew := [mkTempEvent [n] ("capture:" ++ ctx.key) v nv ctx], warns := [{ step := [n] ++ ["capture:" ++ ctx.key], old := none, new := ctx.inputs }], caps := [[n, "capture:" ++ ctx.key]] }, ?_, ?_, ?_⟩
  · unfold executeNode
    rw [if_neg (by simp [singleCapture])]
    rw [show MAX_PROMISES = 999 + 1 from rfl]
    unfold promiseLoop
    rw [singleCapture_async_iter1 ctx v tr nv n snap sf]
    dsimp only
    rw [show (999 : Nat) = 998 + 1 from rfl]
    unfold promiseLoop
    rw [singleCapture_replay_iter ctx v tr nv n snap sf]
    · rfl
    · rfl
    · rfl
  · split <;> rfl
  · split <;> simp

/-- Executing a single-capture node invokes its succeeding `fn` at most
once; never when an event for the node is available at the cursor; and any
invocation leaves a consumed event behind. -/
lemma executeNode_single_capture {n : String} {ctx : StepContext} {fn : CapFn}
    {tr : String → Option ResultV} {P I : List StepEvent} {nv : Int}
    {snap : Option (Nat × Val)} {sf : Nat} {r : ResultV} {st : ExecSt}
    (hfn : CapOk fn)
    (h : executeNode (singleCapture ctx fn) tr P I nv [n] snap sf = some (r, st)) :
    st.caps.count ([n, "capture:" ++ ctx.key]) ≤ 1
    ∧ (P ++ I ≠ [] → st.caps = [])
    ∧ (st.caps ≠ [] → st.consumed ≠ []) := by
  rcases hPI : P ++ I with _ | ⟨hd, tl⟩
  · obtain ⟨hP, hI⟩ := List.append_eq_nil.mp hPI
    subst hP hI
    rcases fn with f | rs
    · have hb : runBody (simpleEnv n [] [] tr nv)
          (.capture ctx (.sync f) (fun x => .ret x)) ExecSt.init =
          (.ok (f nv), { idx := 0, consumed := [mkTempEvent [n] ("capture:" ++ ctx.key) (f nv) nv ctx], tempNew := [mkTempEvent [n] ("capture:" ++ ctx.key) (f nv) nv ctx], warns := [], caps := [[n, "capture:" ++ ctx.key]] }) := by
        rw [runBody_capture]
        rw [@stepCall_frontier (simpleEnv n [] [] tr nv) ExecSt.init { ctx with key := "capture:" ++ ctx.key } (Nat.le_refl 0)]
        rfl
      have hx := @executeNode_body_done _ tr _ _ nv n snap sf _ _ hb
      rw [show ({ dependencies := [], compute := .capture ctx (.sync f) (fun x => .ret x), saga := none } : Node) = singleCapture ctx (.sync f) from rfl] at hx
      rw [hx] at h
      obtain ⟨h1, h2⟩ := Prod.mk.inj (Option.some_inj.mp h)
      subst h2
      refine ⟨by simp, fun hc => absurd rfl hc, fun _ => by simp⟩
    · rcases rs with e | v
      · exact False.elim hfn
      · obtain ⟨st', hex, hcaps, hcons⟩ := executeNode_async_capture ctx v tr nv n snap sf
        rw [hex] at h
        obtain ⟨h1, h2⟩ := Prod.mk.inj (Option.some_inj.mp h)
        subst h2
        rw [hcaps]
        refine ⟨by simp, fun hc => absurd rfl hc, fun _ => hcons⟩
  · have hev : (simpleEnv n P I tr nv).allEvents[ExecSt.init.idx]? = some hd := by
      rw [show (simpleEnv n P I tr nv).allEvents = P ++ I from rfl, hPI]
      simp [show ExecSt.init.idx = 0 from rfl]
    by_cases hk : hd.k = [n] ++ ["capture:" ++ ctx.key]
    · obtain ⟨w, hsc⟩ := @stepCall_replay_match (simpleEnv n P I tr nv) ExecSt.init { ctx with key := "capture:" ++ ctx.key } hd hev hk
      have hb : runBody (simpleEnv n P I tr nv)
          (.capture ctx fn (fun x => .ret x)) ExecSt.init =
          (.ok hd.v, { ExecSt.init with idx := ExecSt.init.idx + 1, consumed := ExecSt.init.consumed ++ [{ toStepEvent := hd, c := { ctx with key := "capture:" ++ ctx.key } }], warns := ExecSt.init.warns ++ w }) := by
        rw [runBody_capture, hsc]
        rfl
      have hx := @executeNode_body_done _ tr _ _ nv n snap sf _ _ hb
      rw [show ({ dependencies := [], compute := .capture ctx fn (fun x => .ret x), saga := none } : Node) = singleCapture ctx fn from rfl] at hx
      rw [hx] at h
      obtain ⟨h1, h2⟩ := Prod.mk.inj (Option.some_inj.mp h)
      subst h2
      refine ⟨by simp [ExecSt.init], fun _ => rfl, fun hc => absurd rfl hc⟩
    · have hsc := @stepCall_mismatch (simpleEnv n P I tr nv) ExecSt.init { ctx with key := "capture:" ++ ctx.key } hd hev hk
      have hb : runBody (simpleEnv n P I tr nv)
          (.capture ctx fn (fun x => .ret x)) ExecSt.init =
          (.errOut ("Expected event " ++ keyStr ((simpleEnv n P I tr nv).currentKeys ++ [({ ctx with key := "capture:" ++ ctx.key } : StepContext).key]) ++ " but got " ++ keyStr hd.k ++ " instead"), { ExecSt.init with idx := ExecSt.init.idx + 1, consumed := ExecSt.init.consumed ++ [{ toStepEvent := hd, c := { ctx with key := "capture:" ++ ctx.key } }] }) := by
        rw [runBody_capture, hsc]
      have hx := @executeNode_body_err _ tr _ _ nv n snap sf _ _ hb
      rw [show ({ dependencies := [], compute := .capture ctx fn (fun x => .ret x), saga := none } : Node) = singleCapture ctx fn from rfl] at hx
      rw [hx] at h
      obtain ⟨h1, h2⟩ := Prod.mk.inj (Option.some_inj.mp h)
      subst h2
      refine ⟨by simp [ExecSt.init], fun _ => rfl, fun hc => absurd rfl hc⟩

/-- Along a duplicate-free schedule started from the empty accumulator,
the capture path of a single-capture node is invoked at most once; never
when the node has persisted events; and an invocation leaves a consumed
event addressed to the node in the accumulator. -/
lemma executeNodes_singleCapture_caps {wf : Wf} {n : String} {ctx : StepContext}
    {fn : CapFn} {s : WfState} {incoming : List StepEvent} {nv : Int} {sf : Nat}
    {tr : String → Option ResultV} {acc : GlobalAcc}
    (hnode : findNode wf n = some (singleCapture ctx fn)) (hfn : CapOk fn)
    (hwf : ∀ k ev, ev ∈ s.events k → ev.k.head? = some k)
    {order : List String} (hord : order.Nodup)
    (heq : executeNodes wf s incoming nv sf order (fun _ => none) ⟨[], [], []⟩ = some (tr, acc)) :
    acc.caps.count ([n, "capture:" ++ ctx.key]) ≤ 1
    ∧ (s.events n ≠ [] → acc.caps.count ([n, "capture:" ++ ctx.key]) = 0)
    ∧ (acc.caps.count ([n, "capture:" ++ ctx.key]) = 1 →
        ∃ ec ∈ acc.consumed, ec.k.head? = some n) := by
  rcases executeNodes_caps_at_n
      (show ([n, "capture:" ++ ctx.key] : List String).head? = some n from rfl)
      hwf hord heq with h0 | ⟨node, trPrev, r, st, hfind, hex, hcnt, hsub⟩
  · rw [h0]
    refine ⟨by simp, fun _ => by simp, fun hc => by simp at hc⟩
  · rw [hnode] at hfind
    have hnd := Option.some_inj.mp hfind
    subst hnd
    obtain ⟨hle, hnonempty, hconsume⟩ := executeNode_single_capture hfn hex
    have hcnt' : acc.caps.count ([n, "capture:" ++ ctx.key]) =
        st.caps.count ([n, "capture:" ++ ctx.key]) := by
      rw [hcnt]
      simp
    refine ⟨?_, ?_, ?_⟩
    · rw [hcnt']
      exact hle
    · intro hP
      rw [hcnt']
      have hcaps0 : st.caps = [] :=
        hnonempty (fun hc => hP (List.append_eq_nil.mp hc).1)
      rw [hcaps0]
      simp
    · intro h1
      rw [hcnt'] at h1
      have hpos : [n, "capture:" ++ ctx.key] ∈ st.caps := by
        have : 0 < st.caps.count ([n, "capture:" ++ ctx.key]) := by omega
        exact List.count_pos_iff.mp this
      have hce : st.consumed ≠ [] := hconsume (List.ne_nil_of_mem hpos)
      obtain ⟨ec, hec⟩ := List.exists_mem_of_ne_nil st.consumed hce
      have hheads := executeNode_heads (fun ev hev => hwf n ev hev)
        (fun ev hev => of_decide_eq_true (List.mem_filter.mp hev).2) hex
      exact ⟨ec, hsub ec hec, hheads.1 ec hec⟩

/-- One completed `run` on an instance holding a single-capture node with
a succeeding effect: the capture `fn` runs at most once; not at all when
the node already has persisted events; and if it ran, the commit leaves
the node's event log non-empty. -/
lemma run_singleCapture_step {wf : Wf} {n : String} {ctx : StepContext} {fn : CapFn}
    {s : WfState} {incoming : List StepEvent} {opts : RunOpts}
    {timer : Option Nat} {wc : Int} {sf : Nat}
    {res : String → Option ResultV} {dr : DryOut} {s' : WfState}
    (hnode : findNode wf n = some (singleCapture ctx fn)) (hfn : CapOk fn)
    (hwf : ∀ k ev, ev ∈ s.events k → ev.k.head? = some k)
    (h : run wf s incoming opts timer wc sf = (.out (res, dr), s')) :
    dr.caps.count ([n, "capture:" ++ ctx.key]) ≤ 1
    ∧ (s.events n ≠ [] → dr.caps.count ([n, "capture:" ++ ctx.key]) = 0)
    ∧ (dr.caps.count ([n, "capture:" ++ ctx.key]) = 1 → s'.events n ≠ []) := by
  obtain ⟨hres, htout, hdr, hs'⟩ := run_out_inv h
  have hsev : ∀ k, s'.events k =
      s.events k ++ (dr.newEvents.filter (fun e => e.k.head? = some k)).map (·.toStepEvent) := by
    intro k
    rw [hs']
    exact commitEvents_filter dr.newEvents s.events k
  unfold dryRun at hdr
  by_cases hr : s.isRunning
  · simp [hr] at hdr
  · simp only [hr, Bool.false_eq_true, if_false] at hdr
    cases harm : timeoutArmed opts
    · rw [harm] at hdr
      rw [if_neg (by simp)] at hdr
      split at hdr
      · cases hdr
      · rename_i tr acc heq
        simp only [RunRes.out.injEq, Prod.mk.injEq] at hdr
        have hcapseq : dr.caps = acc.caps := by rw [← hdr.1]
        have hneweq : dr.newEvents = acc.consumed := by rw [← hdr.1]
        obtain ⟨c1, c2, c3⟩ := executeNodes_singleCapture_caps hnode hfn hwf
          (by exact topologicalSort_nodup wf) heq
        rw [hcapseq]
        refine ⟨c1, c2, ?_⟩
        intro h1
        obtain ⟨ec, hmem, hhd⟩ := c3 h1
        rw [hsev n]
        have hfil : ec ∈ dr.newEvents.filter (fun e => e.k.head? = some n) :=
          List.mem_filter.mpr ⟨by rw [hneweq]; exact hmem, by simp [hhd]⟩
        exact List.ne_nil_of_mem (List.mem_append_right _ (List.mem_map_of_mem _ hfil))
    · rw [harm] at hdr
      rw [if_pos rfl] at hdr
      rcases timer with _ | j
      · split at hdr
        · cases hdr
        · rename_i tr acc heq
          simp only [RunRes.out.injEq, Prod.mk.injEq] at hdr
          have hcapseq : dr.caps = acc.caps := by rw [← hdr.1]
          have hneweq : dr.newEvents = acc.consumed := by rw [← hdr.1]
          obtain ⟨c1, c2, c3⟩ := executeNodes_singleCapture_caps hnode hfn hwf
            (by exact topologicalSort_nodup wf) heq
          rw [hcapseq]
          refine ⟨c1, c2, ?_⟩
          intro h1
          obtain ⟨ec, hmem, hhd⟩ := c3 h1
          rw [hsev n]
          have hfil : ec ∈ dr.newEvents.filter (fun e => e.k.head? = some n) :=
            List.mem_filter.mpr ⟨by rw [hneweq]; exact hmem, by simp [hhd]⟩
          exact List.ne_nil_of_mem (List.mem_append_right _ (List.mem_map_of_mem _ hfil))
      · split at hdr
        · cases hdr
        · rename_i tr acc heq
          simp only [RunRes.out.injEq, Prod.mk.injEq] at hdr
          have hto : dr.timeout = true := by rw [← hdr.1]
          rw [htout] at hto
          cases hto

/-- A completed `run` only appends to each node's event log, and every
appended event is addressed to the bucket it lands in. -/
lemma run_out_events {wf : Wf} {s : WfState} {incoming : List StepEvent}
    {opts : RunOpts} {timer : Option Nat} {wc : Int} {sf : Nat}
    {res : String → Option ResultV} {dr : DryOut} {s' : WfState}
    (h : run wf s incoming opts timer wc sf = (.out (res, dr), s')) :
    ∀ k, ∃ D, s'.events k = s.events k ++ D ∧ ∀ ev ∈ D, ev.k.head? = some k := by
  obtain ⟨hres, htout, hdr, hs'⟩ := run_out_inv h
  intro k
  refine ⟨(dr.newEvents.filter (fun e => e.k.head? = some k)).map (·.toStepEvent), ?_, ?_⟩
  · rw [hs']
    exact commitEvents_filter dr.newEvents s.events k
  · intro ev hev
    obtain ⟨ec, hec, hev⟩ := List.mem_map.mp hev
    rw [← hev]
    exact of_decide_eq_true (List.mem_filter.mp hec).2

/-- The input of one public `run` call. -/
structure RunIn where
  incoming : List StepEvent
  opts : RunOpts
  timer : Option Nat
  wallClock : Int
  sagaFuel : Nat

/-- Drive a sequence of `run` calls on one workflow instance, threading
the persistent state and summing the ghost capture-invocation count at
path `p`; `none` if some call does not return normally. -/
def runSeqCaps (wf : Wf) (p : List String) : WfState → List RunIn → Option (WfState × Nat)
  | s, [] => some (s, 0)
  | s, i :: rest =>
    match run wf s i.incoming i.opts i.timer i.wallClock i.sagaFuel with
    | (.out (_, dr), s') =>
      match runSeqCaps wf p s' rest with
      | some (sEnd, c) => some (sEnd, dr.caps.count p + c)
      | none => none
    | _ => none

/-- Across a sequence of completed runs from a well-formed state, a
single-capture node's `fn` runs at most once in total, and not at all if
the node already has recorded events. -/
lemma runSeqCaps_singleCapture {wf : Wf} {n : String} {ctx : StepContext}
    {fn : CapFn}
    (hnode : findNode wf n = some (singleCapture ctx fn)) (hfn : CapOk fn) :
    ∀ (ins : List RunIn) (s : WfState),
      (∀ k ev, ev ∈ s.events k → ev.k.head? = some k) →
      ∀ {sEnd : WfState} {c : Nat},
        runSeqCaps wf ([n, "capture:" ++ ctx.key]) s ins = some (sEnd, c) →
        c ≤ 1 ∧ (s.events n ≠ [] → c = 0) := by
  intro ins
  induction ins with
  | nil =>
    intro s hwf sEnd c h
    unfold runSeqCaps at h
    simp only [Option.some.injEq, Prod.mk.injEq] at h
    exact ⟨by omega, fun _ => h.2.symm⟩
  | cons i rest ih =>
    intro s hwf sEnd c h
    unfold runSeqCaps at h
    rcases hrun : run wf s i.incoming i.opts i.timer i.wallClock i.sagaFuel with ⟨rr, s'⟩
    rw [hrun] at h
    rcases rr with m | ⟨vals, dr⟩ | _
    · cases h
    · dsimp only at h
      rcases hrest : runSeqCaps wf ([n, "capture:" ++ ctx.key]) s' rest with _ | ⟨sE, cr⟩
      · rw [hrest] at h
        cases h
      · rw [hrest] at h
        dsimp only at h
        simp only [Option.some.injEq, Prod.mk.injEq] at h
        obtain ⟨hsE, hc⟩ := h
        have hgrow := run_out_events hrun
        have hwf' : ∀ k ev, ev ∈ s'.events k → ev.k.head? = some k := by
          intro k ev hev
          obtain ⟨D, hD, hDh⟩ := hgrow k
          rw [hD] at hev
          rcases List.mem_append.mp hev with h1 | h1
          · exact hwf k ev h1
          · exact hDh ev h1
        obtain ⟨ihle, ihzero⟩ := ih s' hwf' hrest
        obtain ⟨s1le, s1zero, s1commit⟩ := run_singleCapture_step hnode hfn hwf hrun
        have hd01 : dr.caps.count ([n, "capture:" ++ ctx.key]) = 0 ∨
            dr.caps.count ([n, "capture:" ++ ctx.key]) = 1 := by omega
        constructor
        · rcases hd01 with h0 | h1
          · omega
          · have hne := s1commit h1
            have hcr := ihzero hne
            omega
        · intro hP
          have h0 := s1zero hP
          have hne' : s'.events n ≠ [] := by
            obtain ⟨D, hD, _⟩ := hgrow n
            rw [hD]
            intro hc2
            exact hP (List.append_eq_nil.mp hc2).1
          have hcr := ihzero hne'
          omega
    · cases h

/-- A saga that re-captures the same path on every iteration: first
iteration continues, second halts. -/
def c4sagaNode : Node :=
  { dependencies := [], compute := .ret (.num 0),
    saga := some (fun v => .capture { key := "x" } (.sync (fun _ => .num 5))
      (fun _ => .ret (if v = .num 0 then (SagaAct.cont, .num 1) else (SagaAct.halt, v)))) }

/-- One-node workflow around `c4sagaNode`. -/
def c4sagaWf : Wf := [("n", c4sagaNode)]

/-- The ghost capture log of a `run` outcome (empty unless it returned). -/
def runCaps (o : RunRes ((String → Option ResultV) × DryOut) × WfState) : List (List String) :=
  match o.1 with
  | (.out (_, dr)) => dr.caps
  | _ => []

/-- Counterexample to C4 as stated: within a single `run` on a fresh
instance, the saga loop executes the body once per iteration against the
same `allEvents` snapshot, so the capture at path `["n", "capture:x"]`
invokes its `fn` twice — the dispatcher cursor is reset to the same
position each iteration, and the event synthesized by the first
invocation is not visible inside the same promise-loop iteration. -/
theorem claim4_counterexample :
    (runCaps (run c4sagaWf spawnState [] {} none 0 3)).count ["n", "capture:x"] = 2 := rfl

/-- **C4 (amended).** Idempotent capture, for a node whose body is a
single `capture` whose effect succeeds: across any sequence of `run`
calls on one instance started by `spawn` (each call completing without
throwing), the function passed to `capture` is invoked at most once in
total for the `(node, capture-path)` pair — after the run in which its
result was recorded as an event, every later run replays the logged value
and does not call `fn` again. (The unrestricted claim is false: a saga
body that reaches the same capture path on two iterations invokes `fn`
once per iteration, see the counterexample.) -/
theorem claim4_capture_at_most_once_amended
    (wf : Wf) (n : String) (ctx : StepContext) (fn : CapFn)
    (hnode : findNode wf n = some (singleCapture ctx fn)) (hfn : CapOk fn)
    (ins : List RunIn) (sEnd : WfState) (c : Nat)
    (h : runSeqCaps wf ([n, "capture:" ++ ctx.key]) spawnState ins = some (sEnd, c)) :
    c ≤ 1 :=
  (runSeqCaps_singleCapture hnode hfn ins spawnState
    (fun k ev hev => absurd hev (List.not_mem_nil ev)) h).1

/-- The capture context of the C4 witness node. -/
def c4ctx : StepContext := { key := "x" }

/-- The succeeding awaitable of the C4 witness node. -/
def c4fn : CapFn := .async (.ok (.num 1))

/-- One-node workflow around a single-capture node. -/
def c4wf : Wf := [("n", singleCapture c4ctx c4fn)]

/-- A plain `run([])` input: no incoming events, no options, no timer. -/
def c4in : RunIn := { incoming := [], opts := {}, timer := none, wallClock := 0, sagaFuel := 1 }

/-- Outcome of two consecutive runs on a fresh instance of `c4wf`. -/
def c4res : WfState × Nat :=
  match runSeqCaps c4wf ["n", "capture:" ++ c4ctx.key] spawnState [c4in, c4in] with
  | some x => x
  | none => (spawnState, 37)

theorem claim4_witness : c4res.2 = 1 ∧ c4res.2 ≤ 1 :=
  ⟨rfl, claim4_capture_at_most_once_amended c4wf "n" c4ctx c4fn rfl trivial
    [c4in, c4in] c4res.1 c4res.2 rfl⟩

/-! ## Claim C9 — fork round-trip -/

/-- Bodies whose only effects are replayable without awaiting: `get`,
`step`, `waitUntil` and synchronous `capture` (no awaitable capture). -/
inductive SyncProg : Prog Val → Prop where
  | ret (a : Val) : SyncProg (.ret a)
  | throwE (m : String) : SyncProg (.throwE m)
  | getv (d : String) (k : Val → Prog Val) :
      (∀ v, SyncProg (k v)) → SyncProg (.getv d k)
  | stepc (ctx : StepContext) (k : Val → Prog Val) :
      (∀ v, SyncProg (k v)) → SyncProg (.stepc ctx k)
  | capture (ctx : StepContext) (f : Int → Val) (k : Val → Prog Val) :
      (∀ v, SyncProg (k v)) → SyncProg (.capture ctx (.sync f) k)
  | waitU (d : Int) (k : Prog Val) : SyncProg k → SyncProg (.waitU d k)

/-- `runBody` only appends to `consumed`. -/
lemma runBody_consumed_prefix {env : BodyEnv} {α : Type} :
    ∀ (p : Prog α) (st : ExecSt) {out : BodyOut α} {st' : ExecSt},
      runBody env p st = (out, st') → ∃ D, st'.consumed = st.consumed ++ D := by
  intro p
  induction p with
  | ret a => intro st out st' h; cases h; exact ⟨[], by simp⟩
  | throwE m => intro st out st' h; cases h; exact ⟨[], by simp⟩
  | getv d k ih => intro st out st' h; exact ih _ st h
  | waitU t k ih =>
    intro st out st' h
    unfold runBody at h
    by_cases hlt : env.nowVal < t
    · rw [if_pos hlt] at h
      cases h
      exact ⟨[], by simp⟩
    · rw [if_neg hlt] at h
      exact ih st h
  | stepc ctx k ih =>
    intro st out st' h
    rw [runBody_stepc] at h
    obtain ⟨ht, hc, hcons⟩ := stepCall_st_spec env st ctx
    rcases hsc : stepCall env st ctx with ⟨v, st1⟩ | ⟨f, st1⟩ | ⟨m, st1⟩ <;>
      rw [hsc] at h hcons <;> simp only [StepRes.toSt] at hcons
    · obtain ⟨D1, hD1⟩ := ih v st1 h
      rcases hcons with heq | ⟨ev, _, heq⟩
      · exact ⟨D1, by rw [hD1, heq]⟩
      · exact ⟨[{ toStepEvent := ev, c := ctx }] ++ D1, by rw [hD1, heq]; simp⟩
    · cases h
      rcases hcons with heq | ⟨ev, _, heq⟩
      · exact ⟨[], by rw [heq]; simp⟩
      · exact ⟨[{ toStepEvent := ev, c := ctx }], by rw [heq]⟩
    · cases h
      rcases hcons with heq | ⟨ev, _, heq⟩
      · exact ⟨[], by rw [heq]; simp⟩
      · exact ⟨[{ toStepEvent := ev, c := ctx }], by rw [heq]⟩
  | capture ctx fn k ih =>
    intro st out st' h
    rw [runBody_capture] at h
    obtain ⟨ht, hc, hcons⟩ := stepCall_st_spec env st { ctx with key := "capture:" ++ ctx.key }
    rcases hsc : stepCall env st { ctx with key := "capture:" ++ ctx.key } with
        ⟨v, st1⟩ | ⟨f, st1⟩ | ⟨m, st1⟩ <;>
      rw [hsc] at h hcons <;> simp only [StepRes.toSt] at hcons
    · obtain ⟨D1, hD1⟩ := ih v st1 h
      rcases hcons with heq | ⟨ev, _, heq⟩
      · exact ⟨D1, by rw [hD1, heq]⟩
      · exact ⟨[{ toStepEvent := ev, c := { ctx with key := "capture:" ++ ctx.key } }] ++ D1,
          by rw [hD1, heq]; simp⟩
    · rcases fn with f' | r
      · obtain ⟨D1, hD1⟩ := ih _ _ h
        rcases hcons with heq | ⟨ev, _, heq⟩
        · refine ⟨[mkTempEvent env.currentKeys ("capture:" ++ ctx.key) (f' env.nowVal) env.nowVal ctx] ++ D1, ?_⟩
          rw [hD1]
          dsimp only
          rw [heq]
          simp
        · refine ⟨[{ toStepEvent := ev, c := { ctx with key := "capture:" ++ ctx.key } }] ++
            [mkTempEvent env.currentKeys ("capture:" ++ ctx.key) (f' env.nowVal) env.nowVal ctx] ++ D1, ?_⟩
          rw [hD1]
          dsimp only
          rw [heq]
          simp
      · cases h
        rcases hcons with heq | ⟨ev, _, heq⟩
        · exact ⟨[], by dsimp only; rw [heq]; simp⟩
        · exact ⟨[{ toStepEvent := ev, c := { ctx with key := "capture:" ++ ctx.key } }],
            by dsimp only; rw [heq]⟩
    · cases h
      rcases hcons with heq | ⟨ev, _, heq⟩
      · exact ⟨[], by rw [heq]; simp⟩
      · exact ⟨[{ toStepEvent := ev, c := { ctx with key := "capture:" ++ ctx.key } }], by rw [heq]⟩

/-- Replay simulation: a `SyncProg` body executed against an empty event
list (recording its sync-capture events) behaves identically when
re-executed against exactly those recorded events: same outcome (never a
`PromiseInterrupt`), with the dispatcher replaying each capture. -/
lemma runBody_sync_sim {n : String} {trP trC : String → Option ResultV} {nv : Int}
    (htr : ∀ d, trP d = trC d) :
    ∀ {p : Prog Val}, SyncProg p →
    ∀ (stP stC : ExecSt) (E : List StepEvent) (outP : BodyOut Val) (stP1 : ExecSt),
      runBody { currentKeys := [n], allEvents := [], deps := trP, nowVal := nv } p stP = (outP, stP1) →
      E.drop stC.idx = (stP1.consumed.drop stP.consumed.length).map (·.toStepEvent) →
      (∀ sk rr c, outP ≠ .promiseIntr sk rr c)
      ∧ ∃ stC1, runBody { currentKeys := [n], allEvents := E, deps := trC, nowVal := nv } p stC = (outP, stC1) := by
  intro p hp
  induction hp with
  | ret a =>
    intro stP stC E outP stP1 hP hE
    cases hP
    exact ⟨fun sk rr c h => BodyOut.noConfusion h, stC, rfl⟩
  | throwE m =>
    intro stP stC E outP stP1 hP hE
    cases hP
    exact ⟨fun sk rr c h => BodyOut.noConfusion h, stC, rfl⟩
  | getv d k hk ih =>
    intro stP stC E outP stP1 hP hE
    obtain ⟨h1, stC1, h2⟩ := ih (resultGetValue (trP d)) stP stC E outP stP1 hP hE
    refine ⟨h1, stC1, ?_⟩
    show runBody { currentKeys := [n], allEvents := E, deps := trC, nowVal := nv }
      (k (resultGetValue (trC d))) stC = (outP, stC1)
    rw [← htr d]
    exact h2
  | waitU d k hk ih =>
    intro stP stC E outP stP1 hP hE
    unfold runBody at hP
    by_cases hlt : nv < d
    · rw [if_pos hlt] at hP
      cases hP
      refine ⟨fun sk rr c h => BodyOut.noConfusion h, stC, ?_⟩
      unfold runBody
      rw [if_pos hlt]
    · rw [if_neg hlt] at hP
      obtain ⟨h1, stC1, h2⟩ := ih stP stC E outP stP1 hP hE
      refine ⟨h1, stC1, ?_⟩
      unfold runBody
      rw [if_neg hlt]
      exact h2
  | stepc ctx k hk ih =>
    intro stP stC E outP stP1 hP hE
    rw [runBody_stepc] at hP
    rw [stepCall_frontier (Nat.zero_le _)] at hP
    dsimp only at hP
    cases hP
    simp only [List.drop_length, List.map_nil] at hE
    have hlen : E.length ≤ stC.idx := List.drop_eq_nil_iff.mp hE
    refine ⟨fun sk rr c h => BodyOut.noConfusion h, stC, ?_⟩
    rw [runBody_stepc]
    rw [stepCall_frontier hlen]
  | capture ctx f k hk ih =>
    intro stP stC E outP stP1 hP hE
    rw [runBody_capture] at hP
    rw [stepCall_frontier (Nat.zero_le _)] at hP
    dsimp only at hP
    obtain ⟨D1, hD1⟩ := runBody_consumed_prefix _ _ hP
    dsimp only at hD1
    have hdropP : stP1.consumed.drop stP.consumed.length =
        [mkTempEvent [n] ("capture:" ++ ctx.key) (f nv) nv ctx] ++ D1 := by
      rw [hD1, List.append_assoc, List.drop_left]
    rw [hdropP] at hE
    simp only [List.map_append, List.map_cons, List.map_nil, List.singleton_append,
      List.cons_append, List.nil_append] at hE
    have hev : E[stC.idx]? = some (mkTempEvent [n] ("capture:" ++ ctx.key) (f nv) nv ctx).toStepEvent := by
      have h0 : (E.drop stC.idx)[0]? =
          some (mkTempEvent [n] ("capture:" ++ ctx.key) (f nv) nv ctx).toStepEvent := by
        rw [hE]
        simp
      rw [List.getElem?_drop] at h0
      simpa using h0
    obtain ⟨w, hsc⟩ := @stepCall_replay_match
      { currentKeys := [n], allEvents := E, deps := trC, nowVal := nv } stC
      { ctx with key := "capture:" ++ ctx.key }
      ((mkTempEvent [n] ("capture:" ++ ctx.key) (f nv) nv ctx).toStepEvent) hev rfl
    have hdelta : List.drop (stC.idx + 1) E = List.map (fun x => x.toStepEvent) (List.drop ((stP.consumed ++ [mkTempEvent [n] ("capture:" ++ ctx.key) (f nv) nv ctx]).length) stP1.consumed) := by
      have hply : List.drop ((stP.consumed ++ [mkTempEvent [n] ("capture:" ++ ctx.key) (f nv) nv ctx]).length) stP1.consumed = D1 := by
        rw [hD1, List.drop_left]
      rw [hply]
      rw [← List.drop_drop, hE]
      rfl
    obtain ⟨h1, stC1, h2⟩ := ih (f nv) _ { stC with idx := stC.idx + 1, consumed := stC.consumed ++ [{ toStepEvent := (mkTempEvent [n] ("capture:" ++ ctx.key) (f nv) nv ctx).toStepEvent, c := { ctx with key := "capture:" ++ ctx.key } }], warns := stC.warns ++ w } E outP stP1 hP hdelta
    refine ⟨h1, stC1, ?_⟩
    rw [runBody_capture, hsc]
    exact h2

/-- Node-level fork simulation: a saga-free node with a `SyncProg` body,
executed with no persisted or incoming events, yields the same Result
when re-executed against exactly the events it consumed, under a
pointwise-equal dependency map. -/
lemma executeNode_fork_sim {node : Node} (hsaga : node.saga = none)
    (hsync : SyncProg node.compute)
    {trP trC : String → Option ResultV} {nv : Int} {n : String}
    {sf sfC : Nat} {rP : ResultV} {stP : ExecSt}
    (htr : ∀ d, trP d = trC d)
    (hP : executeNode node trP [] [] nv [n] none sf = some (rP, stP)) :
    ∃ stC, executeNode node trC (stP.consumed.map (·.toStepEvent)) [] nv [n] none sfC = some (rP, stC) := by
  have hdep : node.dependencies.filter (fun d => depUnsatisfied (trC d)) =
      node.dependencies.filter (fun d => depUnsatisfied (trP d)) := by
    apply List.filter_congr
    intro d _
    rw [htr d]
  unfold executeNode at hP
  by_cases hpend : node.dependencies.filter (fun d => depUnsatisfied (trP d)) = []
  · rw [if_neg (not_not_intro hpend)] at hP
    rw [show MAX_PROMISES = 999 + 1 from rfl] at hP
    unfold promiseLoop at hP
    rw [iterateOnce_eq_noSaga node hsaga [] [] trP nv [n] none sf ExecSt.init] at hP
    simp only [show ExecSt.init.tempNew = [] from rfl, List.map_nil, List.append_nil,
      List.nil_append] at hP
    rcases hb : runBody { currentKeys := [n], allEvents := [], deps := trP, nowVal := nv }
        node.compute ExecSt.init with ⟨outP, stP1⟩
    rw [hb] at hP
    obtain ⟨hnpi, stC1, hbC⟩ := runBody_sync_sim htr hsync ExecSt.init ExecSt.init
      (stP1.consumed.map (fun x => x.toStepEvent)) outP stP1 hb
      (by simp [ExecSt.init])
    rcases outP with a | ⟨f0, w0⟩ | ⟨sk0, r0, c0⟩ | m0
    · dsimp only at hP
      obtain ⟨h1, h2⟩ := Prod.mk.inj (Option.some_inj.mp hP)
      subst h2
      refine ⟨stC1, ?_⟩
      unfold executeNode
      rw [if_neg (show ¬(node.dependencies.filter (fun d => depUnsatisfied (trC d)) ≠ []) from by rw [hdep]; exact not_not_intro hpend)]
      rw [show MAX_PROMISES = 999 + 1 from rfl]
      unfold promiseLoop
      rw [iterateOnce_eq_noSaga node hsaga _ [] trC nv [n] none sfC ExecSt.init]
      simp only [show ExecSt.init.tempNew = [] from rfl, List.map_nil, List.append_nil,
        List.nil_append]
      rw [hbC]
      rw [← h1]
    · dsimp only at hP
      obtain ⟨h1, h2⟩ := Prod.mk.inj (Option.some_inj.mp hP)
      subst h2
      refine ⟨stC1, ?_⟩
      unfold executeNode
      rw [if_neg (show ¬(node.dependencies.filter (fun d => depUnsatisfied (trC d)) ≠ []) from by rw [hdep]; exact not_not_intro hpend)]
      rw [show MAX_PROMISES = 999 + 1 from rfl]
      unfold promiseLoop
      rw [iterateOnce_eq_noSaga node hsaga _ [] trC nv [n] none sfC ExecSt.init]
      simp only [show ExecSt.init.tempNew = [] from rfl, List.map_nil, List.append_nil,
        List.nil_append]
      rw [hbC]
      rw [← h1]
    · exact absurd rfl (hnpi sk0 r0 c0)
    · dsimp only at hP
      obtain ⟨h1, h2⟩ := Prod.mk.inj (Option.some_inj.mp hP)
      subst h2
      refine ⟨stC1, ?_⟩
      unfold executeNode
      rw [if_neg (show ¬(node.dependencies.filter (fun d => depUnsatisfied (trC d)) ≠ []) from by rw [hdep]; exact not_not_intro hpend)]
      rw [show MAX_PROMISES = 999 + 1 from rfl]
      unfold promiseLoop
      rw [iterateOnce_eq_noSaga node hsaga _ [] trC nv [n] none sfC ExecSt.init]
      simp only [show ExecSt.init.tempNew = [] from rfl, List.map_nil, List.append_nil,
        List.nil_append]
      rw [hbC]
      rw [← h1]
  · rw [if_pos hpend] at hP
    obtain ⟨h1, h2⟩ := Prod.mk.inj (Option.some_inj.mp hP)
    subst h2
    refine ⟨ExecSt.init, ?_⟩
    unfold executeNode
    rw [if_pos (show node.dependencies.filter (fun d => depUnsatisfied (trC d)) ≠ [] from by rw [hdep]; exact hpend)]
    rw [← h1, hdep]

/-- The consumed events added by a schedule are all addressed to keys of
that schedule. -/
lemma executeNodes_consumed_delta {wf : Wf} {s : WfState}
    {incoming : List StepEvent} {nv : Int} {sf : Nat}
    (hwf : ∀ k ev, ev ∈ s.events k → ev.k.head? = some k) :
    ∀ {order : List String} {tr : String → Option ResultV} {acc : GlobalAcc}
      {tr' : String → Option ResultV} {acc' : GlobalAcc},
      executeNodes wf s incoming nv sf order tr acc = some (tr', acc') →
      ∃ D, acc'.consumed = acc.consumed ++ D ∧
        ∀ ec ∈ D, ∃ k, k ∈ order ∧ ec.k.head? = some k := by
  intro order
  induction order with
  | nil =>
    intro tr acc tr' acc' h
    unfold executeNodes at h
    simp only [Option.some.injEq, Prod.mk.injEq] at h
    exact ⟨[], by rw [← h.2]; simp, fun ec hec => absurd hec (List.not_mem_nil ec)⟩
  | cons m rest ih =>
    intro tr acc tr' acc' h
    unfold executeNodes at h
    rcases hfm : findNode wf m with _ | nodeM
    · rw [hfm] at h
      dsimp only at h
      obtain ⟨D, hD, hDh⟩ := ih h
      exact ⟨D, hD, fun ec hec =>
        (hDh ec hec).elim (fun k hk => ⟨k, List.mem_cons_of_mem m hk.1, hk.2⟩)⟩
    · rw [hfm] at h
      dsimp only at h
      rcases hex : executeNode nodeM tr (s.events m)
          (incoming.filter (fun e => e.k.head? = some m)) nv [m]
          (s.snapshots m) sf with _ | ⟨r0, st0⟩
      · rw [hex] at h
        cases h
      · rw [hex] at h
        dsimp only at h
        obtain ⟨D, hD, hDh⟩ := ih h
        have hheads := executeNode_heads (fun ev hev => hwf m ev hev)
          (fun ev hev => of_decide_eq_true (List.mem_filter.mp hev).2) hex
        refine ⟨st0.consumed ++ D, by rw [hD]; simp, ?_⟩
        intro ec hec
        rcases List.mem_append.mp hec with h1 | h1
        · exact ⟨m, List.mem_cons_self m rest, hheads.1 ec h1⟩
        · obtain ⟨k, hk1, hk2⟩ := hDh ec h1
          exact ⟨k, List.mem_cons_of_mem m hk1, hk2⟩

/-- A non-timed-out successful `dryRun` comes from `executeNodes` over the
full topological order, started from the empty result map and
accumulator. -/
lemma dryRun_out_src {wf : Wf} {s : WfState} {incoming : List StepEvent}
    {opts : RunOpts} {timer : Option Nat} {wc : Int} {sf : Nat}
    {dr : DryOut} {s1 : WfState}
    (h : dryRun wf s incoming opts timer wc sf = .out (dr, s1))
    (ht : dr.timeout = false) :
    ∃ tr acc, executeNodes wf s incoming (getNowVal opts wc) sf (topologicalSort wf)
        (fun _ => none) ⟨[], [], []⟩ = some (tr, acc) ∧
      dr.values = tr ∧ dr.newEvents = acc.consumed ∧ dr.caps = acc.caps := by
  unfold dryRun at h
  by_cases hr : s.isRunning
  · simp [hr] at h
  · simp only [hr, Bool.false_eq_true, if_false] at h
    cases harm : timeoutArmed opts
    · rw [harm] at h
      rw [if_neg (by simp)] at h
      split at h
      · cases h
      · rename_i tr acc heq
        simp only [RunRes.out.injEq, Prod.mk.injEq] at h
        exact ⟨tr, acc, heq, by rw [← h.1], by rw [← h.1], by rw [← h.1]⟩
    · rw [harm] at h
      rw [if_pos rfl] at h
      rcases timer with _ | j
      · split at h
        · cases h
        · rename_i tr acc heq
          simp only [RunRes.out.injEq, Prod.mk.injEq] at h
          exact ⟨tr, acc, heq, by rw [← h.1], by rw [← h.1], by rw [← h.1]⟩
      · split at h
        · cases h
        · rename_i tr acc heq
          simp only [RunRes.out.injEq, Prod.mk.injEq] at h
          have hto : dr.timeout = true := by rw [← h.1]
          rw [ht] at hto
          cases hto

/-- Scheduler-level fork simulation: re-running a duplicate-free schedule
of saga-free `SyncProg` nodes against exactly the events the first run
recorded (and no snapshots) reproduces every Result. -/
lemma executeNodes_fork_lockstep {wf : Wf} {sP sC : WfState} {nv : Int}
    {sf sfC : Nat}
    (hsync : ∀ k node, findNode wf k = some node → node.saga = none ∧ SyncProg node.compute)
    (hPev : ∀ k, sP.events k = [])
    (hPsnap : ∀ k, sP.snapshots k = none)
    (hCsnap : ∀ k, sC.snapshots k = none) :
    ∀ {order : List String}, order.Nodup →
    ∀ {trP : String → Option ResultV} {accP : GlobalAcc}
      {trF : String → Option ResultV} {accF : GlobalAcc},
      executeNodes wf sP [] nv sf order trP accP = some (trF, accF) →
      ∀ {trC : String → Option ResultV} {accC : GlobalAcc},
      (∀ d, trP d = trC d) →
      (∀ k, k ∈ order →
        sC.events k = ((accF.consumed.filter (fun e => e.k.head? = some k)).map (·.toStepEvent))
        ∧ accP.consumed.filter (fun e => e.k.head? = some k) = []) →
      ∃ trC' accC', executeNodes wf sC [] nv sfC order trC accC = some (trC', accC')
        ∧ ∀ d, trF d = trC' d := by
  intro order
  induction order with
  | nil =>
    intro _ trP accP trF accF h trC accC htr hsC
    unfold executeNodes at h
    simp only [Option.some.injEq, Prod.mk.injEq] at h
    refine ⟨trC, accC, rfl, ?_⟩
    intro d
    rw [← h.1]
    exact htr d
  | cons m rest ih =>
    intro hnodup trP accP trF accF h trC accC htr hsC
    have hnodup' := hnodup
    rw [List.nodup_cons] at hnodup'
    unfold executeNodes at h
    rcases hfm : findNode wf m with _ | nodeM
    · rw [hfm] at h
      dsimp only at h
      obtain ⟨trC', accC', hC, htrF⟩ := ih hnodup'.2 h htr
        (fun k hk => hsC k (List.mem_cons_of_mem m hk))
      refine ⟨trC', accC', ?_, htrF⟩
      unfold executeNodes
      rw [hfm]
      exact hC
    · rw [hfm] at h
      dsimp only at h
      rcases hex : executeNode nodeM trP (sP.events m)
          (([] : List StepEvent).filter (fun e => e.k.head? = some m)) nv [m]
          (sP.snapshots m) sf with _ | ⟨r0, st0⟩
      · rw [hex] at h
        cases h
      · rw [hex] at h
        dsimp only at h
        have hexP : executeNode nodeM trP [] [] nv [m] none sf = some (r0, st0) := by
          rw [hPev m, hPsnap m] at hex
          exact hex
        obtain ⟨hsaga, hsyncM⟩ := hsync m nodeM hfm
        obtain ⟨stC0, hexC⟩ := executeNode_fork_sim hsaga hsyncM htr hexP
        have hheads := executeNode_heads
          (fun ev hev => absurd hev (List.not_mem_nil ev))
          (fun ev hev => absurd hev (List.not_mem_nil ev)) hexP
        obtain ⟨Drest, hDrest, hDresth⟩ := executeNodes_consumed_delta
          (fun k ev hev => by rw [hPev k] at hev; cases hev) h
        have hfiltm : accF.consumed.filter (fun e => e.k.head? = some m) = st0.consumed := by
          rw [hDrest]
          dsimp only
          rw [List.filter_append, List.filter_append]
          rw [(hsC m (List.mem_cons_self m rest)).2]
          rw [List.filter_eq_self.mpr (fun ec hec => by
            simp only [decide_eq_true_eq]
            exact hheads.1 ec hec)]
          rw [List.filter_eq_nil_iff.mpr (fun ec hec => by
            simp only [decide_eq_true_eq]
            obtain ⟨k, hk1, hk2⟩ := hDresth ec hec
            rw [hk2]
            intro hcon
            exact hnodup'.1 ((Option.some_inj.mp hcon) ▸ hk1)
            )]
          simp
        have hCev : sC.events m = st0.consumed.map (·.toStepEvent) := by
          rw [(hsC m (List.mem_cons_self m rest)).1, hfiltm]
        have htr' : ∀ d, Function.update trP m (some r0) d = Function.update trC m (some r0) d := by
          intro d
          by_cases hdm : d = m
          · subst hdm
            rw [Function.update_same, Function.update_same]
          · rw [Function.update_noteq hdm, Function.update_noteq hdm]
            exact htr d
        have hsC' : ∀ k, k ∈ rest →
            sC.events k = ((accF.consumed.filter (fun e => e.k.head? = some k)).map (·.toStepEvent))
            ∧ ({ consumed := accP.consumed ++ st0.consumed, warns := accP.warns ++ st0.warns, caps := accP.caps ++ st0.caps } : GlobalAcc).consumed.filter (fun e => e.k.head? = some k) = [] := by
          intro k hk
          refine ⟨(hsC k (List.mem_cons_of_mem m hk)).1, ?_⟩
          dsimp only
          rw [List.filter_append, (hsC k (List.mem_cons_of_mem m hk)).2]
          rw [List.filter_eq_nil_iff.mpr (fun ec hec => by
            simp only [decide_eq_true_eq]
            rw [hheads.1 ec hec]
            intro hcon
            exact hnodup'.1 ((Option.some_inj.mp hcon).symm ▸ hk)
            )]
          rfl
        obtain ⟨trC', accC', hC, htrF⟩ := ih hnodup'.2 h htr' hsC'
        refine ⟨trC', accC', ?_, htrF⟩
        unfold executeNodes
        rw [hfm]
        dsimp only
        rw [show executeNode nodeM trC (sC.events m)
            (([] : List StepEvent).filter (fun e => e.k.head? = some m)) nv [m]
            (sC.snapshots m) sfC = some (r0, stC0) from by
          rw [hCev, hCsnap m]
          exact hexC]
        exact hC

/-- **C9 (amended).** Fork round-trip for replayable workflows: take a
workflow whose nodes are saga-free with `SyncProg` bodies (all effects
replayable: `get`, `step`, `waitUntil` and synchronous `capture`; any
wall-clock read goes through `getNow`). If a fresh instance's first `run`
with no incoming events returns normally, then `fork()` followed by
`run([])` on the child — with no timeout and the same deterministic time
reading — returns the same Result for every node. (The unrestricted claim
is false: replay duplicates the parent's log on every further parent run,
and an awaitable capture followed by a step makes the forked child err
where the parent suspended, see the counterexample.) -/
theorem claim9_fork_roundtrip_amended
    (wf : Wf)
    (hsync : ∀ k node, findNode wf k = some node → node.saga = none ∧ SyncProg node.compute)
    (popts : RunOpts) (ptimer : Option Nat) (pwc : Int) (psf : Nat)
    (copts : RunOpts) (cwc : Int) (csf : Nat)
    (hct : copts.timeout = none)
    (hnv : getNowVal copts cwc = getNowVal popts pwc)
    (res : String → Option ResultV) (dr : DryOut) (s' : WfState)
    (hrun : run wf spawnState [] popts ptimer pwc psf = (.out (res, dr), s')) :
    ∃ res' dr' s'', run wf (fork s') [] copts none cwc csf = (.out (res', dr'), s'')
      ∧ ∀ k, res' k = res k := by
  obtain ⟨hres, htout, hdr, hs'⟩ := run_out_inv hrun
  obtain ⟨trF, accF, hexe, hvals, hnewev, hcaps⟩ := dryRun_out_src hdr htout
  have hCev : ∀ k, (fork s').events k =
      ((accF.consumed.filter (fun e => e.k.head? = some k)).map (·.toStepEvent)) := by
    intro k
    show s'.events k = _
    rw [hs']
    show commitEvents spawnState.events dr.newEvents k = _
    rw [commitEvents_filter, hnewev]
    show ([] : List StepEvent) ++ _ = _
    rw [List.nil_append]
  have hCsnap : ∀ k, (fork s').snapshots k = none := by
    intro k
    show s'.snapshots k = none
    rw [hs']
    show commitSnapshots spawnState.snapshots dr.values k = none
    unfold commitSnapshots
    rcases hv : dr.values k with _ | r
    · rfl
    · rcases r with P | v0 | m0 | ⟨f, w, vo, eo⟩
      · rfl
      · rfl
      · rfl
      · rcases eo with _ | e
        · rfl
        · obtain ⟨node, trPrev, st, hfind, hexk⟩ := dryRun_result_source hdr k _ hv
          have hshape := executeNode_intr_shape hexk
          have hnone := (hshape.2.2 (hsync k node hfind).1).2
          cases hnone
  obtain ⟨trC', accC', hCexe, htrF⟩ := executeNodes_fork_lockstep hsync
    (fun k => rfl) (fun k => rfl) hCsnap (topologicalSort_nodup wf) hexe
    (fun d => rfl) (fun k hk => ⟨hCev k, rfl⟩)
  have hCexe' : executeNodes wf (fork s') [] (getNowVal copts cwc) csf
      (topologicalSort wf) (fun _ => none) ⟨[], [], []⟩ = some (trC', accC') := by
    rw [hnv]
    exact hCexe
  have hcdry : dryRun wf (fork s') [] copts none cwc csf =
      .out ({ values := trC', newEvents := accC'.consumed, warnings := accC'.warns,
              timeout := false, caps := accC'.caps },
            { fork s' with isRunning := false }) := by
    unfold dryRun
    rw [show (fork s').isRunning = false from rfl]
    simp only [Bool.false_eq_true, if_false]
    rw [show timeoutArmed copts = false from by unfold timeoutArmed; rw [hct]]
    simp only [Bool.false_eq_true, if_false]
    rw [hCexe']
  refine ⟨trC',
    { values := trC', newEvents := accC'.consumed, warnings := accC'.warns,
      timeout := false, caps := accC'.caps },
    { events := commitEvents (fork s').events accC'.consumed,
      snapshots := commitSnapshots (fork s').snapshots trC',
      isRunning := false }, ?_, ?_⟩
  · unfold run
    rw [hcdry]
    dsimp only
    simp only [Bool.false_eq_true, if_false]
  · intro k
    show trC' k = res k
    rw [hres, hvals]
    exact (htrF k).symm

/-- An awaitable-free body would be replayable; this node is not: a
synchronous capture followed by a `step` that always suspends. -/
def c9node : Node :=
  { dependencies := [],
    compute := .capture { key := "c" } (.sync (fun _ => .num 1))
      (fun _ => .stepc { key := "s" } (fun v => .ret v)),
    saga := none }

/-- One-node workflow around `c9node`. -/
def c9wf : Wf := [("n", c9node)]

/-- Parent state after its first `run([])`. -/
def c9s1 : WfState := (run c9wf spawnState [] {} none 0 1).2

/-- The parent's second (most recent) `run([])`. -/
def c9p2 : RunRes ((String → Option ResultV) × DryOut) × WfState :=
  run c9wf c9s1 [] {} none 0 1

/-- `run([])` on a fork taken after the parent's second run. -/
def c9child : RunRes ((String → Option ResultV) × DryOut) × WfState :=
  run c9wf (fork c9p2.2) [] {} none 0 1

/-- The `status` discriminant of a Result. -/
def statusStr : Option ResultV → String
  | some (.pending _) => "pending"
  | some (.done _) => "done"
  | some (.err _) => "err"
  | some (.intr _ _ _ _) => "intr"
  | none => "none"

/-- Counterexample to C9 as stated: the parent's most recent `run([])`
suspends node `n` with `intr`, but `fork()` followed by `run([])` returns
`err` — replay re-appended the consumed capture event on the second
parent run, so the child's log holds it twice and the child's `step`
meets the duplicate at the cursor. -/
theorem claim9_counterexample :
    statusStr (runResults c9p2.1 "n") = "intr"
    ∧ statusStr (runResults c9child.1 "n") = "err"
    ∧ runResults c9p2.1 "n" ≠ runResults c9child.1 "n" :=
  ⟨rfl, rfl, by decide⟩

/-- A replayable one-node workflow for the C9 witness. -/
def c9wnode : Node := { dependencies := [], compute := .ret (.num 7), saga := none }

/-- Its workflow. -/
def c9wwf : Wf := [("n", c9wnode)]

/-- The parent's first `run([])` outcome, destructured. -/
def c9wout : ((String → Option ResultV) × DryOut) × WfState :=
  match run c9wwf spawnState [] {} none 0 1 with
  | (.out (res, dr), s') => ((res, dr), s')
  | (_, s') => ((fun _ => none, { values := fun _ => none, newEvents := [], warnings := [], timeout := false, caps := [] }), s')

theorem claim9_witness :
    ∃ res' dr' s'', run c9wwf (fork c9wout.2) [] {} none 0 1 = (.out (res', dr'), s'')
      ∧ ∀ k, res' k = c9wout.1.1 k :=
  claim9_fork_roundtrip_amended c9wwf
    (fun k node h => by
      by_cases hk : ("n" : String) = k
      · have hnode : node = c9wnode := by
          simp [c9wwf, findNode, List.find?, hk] at h
          exact h.symm
        rw [hnode]
        exact ⟨rfl, SyncProg.ret (.num 7)⟩
      · simp [c9wwf, findNode, List.find?, hk] at h)
    {} none 0 1 {} 0 1 rfl rfl c9wout.1.1 c9wout.1.2 c9wout.2 rfl
